import Mathlib

/-!
# Verification of the convex-authz resolution and indexing engine

Shallow embedding, in Lean 4, of the core of the `convex-authz` authorization
engine: the pattern matcher and override evaluator (`src/component/helpers`),
the compute-on-read resolver (`checkPermission`, `hasRole` in
`src/component/queries`), the precomputed-index maintainer
(`assignRoleWithCompute`, `revokeRoleWithCompute`, `grantPermissionDirect`,
`denyPermissionDirect`, `checkPermissionFast`, `getUserPermissionsFast` in
`src/component/indexed`), the ReBAC traversal engine
(`checkRelationWithTraversal` in `src/component/rebac`) and the client-side
policy selector (`getPolicyForPermission` in `src/client/authz`).

Conventions of the embedding:
* Database tables are lists of rows; Convex document ids are natural numbers
  handed out by a `nextId` counter carried in the state.
* `Date.now()` is an explicit `now : Nat` parameter (milliseconds).
* TypeScript code that can `throw` is modelled in `Except String`; a thrown
  exception is `Except.error`.
* JavaScript truthiness of an optional numeric field (`expiresAt`) is modelled
  exactly: the value `0` is falsy.
-/

namespace ConvexAuthz

/-- A scope `{ type, id }`; `Option Scope` models an optional scope argument
(`undefined` = global). From the schema in `src/component/schema`. -/
structure Scope where
  type : String
  id : String
deriving DecidableEq, Repr

/-- JavaScript's `permission.split(":")` for the one-character separator,
implemented by structural recursion over the character list so that concrete
instances compute: `"" ↦ [""]`, `"a:b" ↦ ["a","b"]`, `"a:" ↦ ["a",""]`. -/
def splitOnColon : List Char → List (List Char)
  | [] => [[]]
  | ch :: rest =>
    if ch = ':' then [] :: splitOnColon rest
    else
      match splitOnColon rest with
      | head :: tail => (ch :: head) :: tail
      | [] => [[ch]]

/-- `parsePermission` from `src/component/helpers`: splits on `":"` and throws
`Invalid permission format` unless there are exactly two parts. -/
def parsePermission (permission : String) : Except String (String × String) :=
  match (splitOnColon permission.data).map String.mk with
  | [resource, action] => .ok (resource, action)
  | _ => .error ("Invalid permission format: \"" ++ permission ++
      "\". Expected \"resource:action\"")

/-- `matchesPermissionPattern` from `src/component/helpers`. The pattern `"*"`
matches everything; otherwise both the permission and the pattern are parsed
(either parse can throw) and the components are compared, `"*"` matching
anything in its position. -/
def matchesPermissionPattern (permission pattern : String) :
    Except String Bool :=
  if pattern = "*" then .ok true
  else do
    let (permResource, permAction) ← parsePermission permission
    let (patResource, patAction) ← parsePermission pattern
    .ok ((patResource == "*" || patResource == permResource) &&
         (patAction == "*" || patAction == permAction))

/-- `matchesScope` from `src/component/helpers`: an absent candidate scope is
global and matches everything; a present candidate never matches an absent
target; otherwise `(type, id)` must agree. -/
def matchesScope (scope targetScope : Option Scope) : Bool :=
  match scope with
  | none => true
  | some s =>
    match targetScope with
    | none => false
    | some t => s.type == t.type && s.id == t.id

/-- `isExpired` from `src/component/helpers`: `false` for an absent timestamp,
otherwise `Date.now() > expiresAt`. -/
def isExpired (now : Nat) (expiresAt : Option Nat) : Bool :=
  match expiresAt with
  | none => false
  | some t => now > t

/-! ## Standard resolver (compute-on-read), from `src/component/queries` -/

/-- Effect of a permission override; the `permissionOverrides` schema restricts
it to the union of the literals `"allow"` and `"deny"`. -/
inductive Effect where
  | allow
  | deny
deriving DecidableEq, Repr

/-- A row of the `permissionOverrides` table (schema in
`src/component/schema`); `id` models the Convex `_id`. -/
structure OverrideRow where
  id : Nat
  userId : String
  permission : String
  effect : Effect
  scope : Option Scope
  reason : Option String
  createdBy : Option String
  expiresAt : Option Nat
deriving DecidableEq, Repr

/-- A row of the `roleAssignments` table (schema in `src/component/schema`).
The opaque `metadata : v.any()` field, which no resolution code reads, is
omitted. -/
structure AssignmentRow where
  id : Nat
  userId : String
  role : String
  scope : Option Scope
  assignedBy : Option String
  expiresAt : Option Nat
deriving DecidableEq, Repr

/-- Result object of `checkPermission`; `matchedOverride` carries the id of the
override that decided the check. -/
structure CheckResult where
  allowed : Bool
  reason : String
  matchedRole : Option String
  matchedOverride : Option Nat
deriving DecidableEq, Repr

/-- The first loop of `checkPermission`: scan the non-expired overrides for an
explicit deny whose pattern and scope match. The pattern match can throw. -/
def findDenyOverride (permission : String) (scope : Option Scope) :
    List OverrideRow → Except String (Option OverrideRow)
  | [] => .ok none
  | o :: rest =>
    if o.effect = .deny then do
      let m ← matchesPermissionPattern permission o.permission
      if m && matchesScope o.scope scope then .ok (some o)
      else findDenyOverride permission scope rest
    else findDenyOverride permission scope rest

/-- The second loop of `checkPermission`: scan for an explicit allow whose
pattern and scope match. -/
def findAllowOverride (permission : String) (scope : Option Scope) :
    List OverrideRow → Except String (Option OverrideRow)
  | [] => .ok none
  | o :: rest =>
    if o.effect = .allow then do
      let m ← matchesPermissionPattern permission o.permission
      if m && matchesScope o.scope scope then .ok (some o)
      else findAllowOverride permission scope rest
    else findAllowOverride permission scope rest

/-- Inner loop of the role step of `checkPermission`: does any granted pattern
of the role match the requested permission? -/
def anyPatternMatches (permission : String) :
    List String → Except String Bool
  | [] => .ok false
  | pat :: rest => do
    let m ← matchesPermissionPattern permission pat
    if m then .ok true else anyPatternMatches permission rest

/-- Role step of `checkPermission`: walk the valid assignments, look the role
up in the caller-supplied `rolePermissions` record and return the first role
one of whose patterns matches. -/
def findGrantingRole (permission : String)
    (rolePermissions : List (String × List String)) :
    List AssignmentRow → Except String (Option String)
  | [] => .ok none
  | a :: rest =>
    match rolePermissions.find? (fun e => e.1 = a.role) with
    | none => findGrantingRole permission rolePermissions rest
    | some (_, rolePerms) => do
      let m ← anyPatternMatches permission rolePerms
      if m then .ok (some a.role)
      else findGrantingRole permission rolePermissions rest

/-- `checkPermission` from `src/component/queries`: filter the caller's
overrides to the non-expired ones, check deny overrides first, then allow
overrides, then role-derived grants against the caller-supplied
`rolePermissions` record. The `overrides` and `assignments` lists model the
`permissionOverrides` and `roleAssignments` tables; both lookups are by
`userId` index. -/
def checkPermission (overrides : List OverrideRow)
    (assignments : List AssignmentRow) (userId permission : String)
    (scope : Option Scope) (rolePermissions : List (String × List String))
    (now : Nat) : Except String CheckResult := do
  let validOverrides := (overrides.filter (fun o => o.userId = userId)).filter
    (fun o => !isExpired now o.expiresAt)
  match ← findDenyOverride permission scope validOverrides with
  | some o => .ok ⟨false, o.reason.getD "Explicitly denied by override",
      none, some o.id⟩
  | none =>
  match ← findAllowOverride permission scope validOverrides with
  | some o => .ok ⟨true, o.reason.getD "Explicitly allowed by override",
      none, some o.id⟩
  | none =>
  let validAssignments :=
    (assignments.filter (fun a => a.userId = userId)).filter
      (fun a => !isExpired now a.expiresAt && matchesScope a.scope scope)
  match ← findGrantingRole permission rolePermissions validAssignments with
  | some role => .ok ⟨true, "Granted by role: " ++ role, some role, none⟩
  | none => .ok ⟨false, "No role or override grants this permission",
      none, none⟩

/-- `hasRole` from `src/component/queries`: some non-expired assignment of the
role to the user whose scope matches the requested scope. -/
def hasRole (assignments : List AssignmentRow) (userId role : String)
    (scope : Option Scope) (now : Nat) : Bool :=
  (assignments.filter (fun a => a.userId = userId && a.role = role)).any
    (fun a => !isExpired now a.expiresAt && matchesScope a.scope scope)

/-! ## Indexed maintainer (precomputed caches), from `src/component/indexed` -/

/-- A row of the `effectivePermissions` derived cache. Unlike
`permissionOverrides`, its `effect` field is `v.string()` in the schema, so it
is an arbitrary string here. `directGrant` / `directDeny` are optional
booleans. -/
structure EffPermRow where
  id : Nat
  userId : String
  permission : String
  scopeKey : String
  scope : Option Scope
  effect : String
  sources : List String
  directGrant : Option Bool
  directDeny : Option Bool
  reason : Option String
  grantedBy : Option String
  expiresAt : Option Nat
  createdAt : Nat
  updatedAt : Nat
deriving DecidableEq, Repr

/-- A row of the `effectiveRoles` derived cache. -/
structure EffRoleRow where
  id : Nat
  userId : String
  role : String
  scopeKey : String
  scope : Option Scope
  assignedBy : Option String
  expiresAt : Option Nat
  createdAt : Nat
  updatedAt : Nat
deriving DecidableEq, Repr

/-- The state the indexed maintainer operates on: the two derived tables plus
the id counter that models Convex's allocation of fresh `_id`s. -/
structure IndexDb where
  perms : List EffPermRow
  roles : List EffRoleRow
  nextId : Nat
deriving DecidableEq, Repr

/-- `GLOBAL_SCOPE_KEY` and the scope-key construction
`scope ? `type:id` : "global"` used by every indexed mutation. -/
def scopeKeyOf (scope : Option Scope) : String :=
  match scope with
  | some s => s.type ++ ":" ++ s.id
  | none => "global"

/-- The rows the `by_user_permission_scope` index returns for one key. -/
def permRowsAt (db : List EffPermRow) (userId permission scopeKey : String) :
    List EffPermRow :=
  db.filter (fun r =>
    r.userId = userId && r.permission = permission && r.scopeKey = scopeKey)

/-- Convex's `.unique()` on the `by_user_permission_scope` index: `null` when
no row matches, the row when exactly one does, and a thrown error when the
index holds duplicates. -/
def uniquePermRow (db : List EffPermRow) (userId permission scopeKey : String) :
    Except String (Option EffPermRow) :=
  match permRowsAt db userId permission scopeKey with
  | [] => .ok none
  | [r] => .ok (some r)
  | _ => .error "unique() query returned more than one result"

/-- The rows the `by_user_role_scope` index returns for one key. -/
def roleRowsAt (db : List EffRoleRow) (userId role scopeKey : String) :
    List EffRoleRow :=
  db.filter (fun r =>
    r.userId = userId && r.role = role && r.scopeKey = scopeKey)

/-- Convex's `.unique()` on the `by_user_role_scope` index. -/
def uniqueRoleRow (db : List EffRoleRow) (userId role scopeKey : String) :
    Except String (Option EffRoleRow) :=
  match roleRowsAt db userId role scopeKey with
  | [] => .ok none
  | [r] => .ok (some r)
  | _ => .error "unique() query returned more than one result"

/-! ### `checkPermissionFast` -/

/-- `buildScopeKeys`: the specific `type:id` key first, then `"global"`, or
just `"global"` when no object is given. In the source the guard is the JS
truthiness `objectType && objectId`; absent arguments are `Option.none` here
(the queries receive `v.optional(v.string())` arguments). -/
def buildScopeKeys (objectType objectId : Option String) : List String :=
  match objectType, objectId with
  | some t, some i => [t ++ ":" ++ i, "global"]
  | _, _ => ["global"]

/-- `buildPermissionCandidates`: the sentinel global wildcards map to
`["*", "*:*"]`; otherwise the permission is parsed and the five candidates
`[exact, resource:*, *:action, *:*, *]` are deduplicated preserving first
occurrence; a parse failure is caught and yields `[permission]`. -/
def buildPermissionCandidates (permission : String) : List String :=
  if permission = "*" || permission = "*:*" then ["*", "*:*"]
  else
    match parsePermission permission with
    | .ok (resource, action) =>
      [permission, resource ++ ":*", "*:" ++ action, "*:*", "*"].dedup
    | .error _ => [permission]

/-- The skip test `cached.expiresAt && cached.expiresAt < Date.now()` of
`checkPermissionFast` and `hasRoleFast`, with JS truthiness: a stored `0`
timestamp is falsy, so such a row is never skipped. -/
def expiredTruthy (now : Nat) (expiresAt : Option Nat) : Bool :=
  match expiresAt with
  | none => false
  | some t => decide (0 < t) && decide (t < now)

/-- The nested candidate loop of `checkPermissionFast`, flattened over the
`(scopeKey, permission)` pairs in iteration order, with the running `allowed`
flag. A live deny row returns `false` immediately; a live row of any other
effect sets `allowed`. -/
def checkPairsFast (db : List EffPermRow) (userId : String) (now : Nat) :
    List (String × String) → Bool → Except String Bool
  | [], allowed => .ok allowed
  | (scopeKey, permission) :: rest, allowed => do
    match ← uniquePermRow db userId permission scopeKey with
    | none => checkPairsFast db userId now rest allowed
    | some cached =>
      if expiredTruthy now cached.expiresAt then
        checkPairsFast db userId now rest allowed
      else if cached.effect = "deny" then .ok false
      else checkPairsFast db userId now rest true

/-- The `(scopeKey, patternCandidate)` pairs `checkPermissionFast` scans, in
order: outer loop over scope keys, inner loop over pattern candidates. -/
def fastPairs (permission : String) (objectType objectId : Option String) :
    List (String × String) :=
  (buildScopeKeys objectType objectId).flatMap
    (fun sk => (buildPermissionCandidates permission).map (fun p => (sk, p)))

/-- `checkPermissionFast` from `src/component/indexed`: O(1) lookups on the
`effectivePermissions` cache over all candidate pairs. -/
def checkPermissionFast (db : List EffPermRow) (userId permission : String)
    (objectType objectId : Option String) (now : Nat) : Except String Bool :=
  checkPairsFast db userId now (fastPairs permission objectType objectId) false

/-! ### Write path -/

/-- `ctx.db.patch` on an `effectivePermissions` row setting `sources` and
`updatedAt` (the patch shape used by `assignRoleWithCompute` and
`revokeRoleWithCompute`). -/
def setPermSources (db : List EffPermRow) (id : Nat) (sources : List String)
    (now : Nat) : List EffPermRow :=
  db.map (fun r => if r.id = id then { r with sources, updatedAt := now } else r)

/-- Delete an `effectivePermissions` row by id. -/
def deletePerm (db : List EffPermRow) (id : Nat) : List EffPermRow :=
  db.filter (fun r => r.id ≠ id)

/-- Delete an `effectiveRoles` row by id. -/
def deleteRole (db : List EffRoleRow) (id : Nat) : List EffRoleRow :=
  db.filter (fun r => r.id ≠ id)

/-- The permission loop of `assignRoleWithCompute`: for each granted
permission, append the role to the sources of the existing cached row (no-op
when already present) or insert a fresh `effect := "allow"` row. -/
def assignPermsLoop (userId role : String) (scope : Option Scope)
    (scopeKey : String) (expiresAt : Option Nat) (now : Nat) :
    List String → IndexDb → Except String IndexDb
  | [], st => .ok st
  | permission :: rest, st => do
    match ← uniquePermRow st.perms userId permission scopeKey with
    | some existingPerm =>
      let sources := existingPerm.sources
      if role ∈ sources then
        assignPermsLoop userId role scope scopeKey expiresAt now rest st
      else
        assignPermsLoop userId role scope scopeKey expiresAt now rest
          { st with perms :=
              setPermSources st.perms existingPerm.id (sources ++ [role]) now }
    | none =>
      assignPermsLoop userId role scope scopeKey expiresAt now rest
        { st with
          perms := st.perms ++ [{
            id := st.nextId, userId, permission, scopeKey, scope,
            effect := "allow", sources := [role], directGrant := none,
            directDeny := none, reason := none, grantedBy := none,
            expiresAt, createdAt := now, updatedAt := now }],
          nextId := st.nextId + 1 }

/-- `assignRoleWithCompute` from `src/component/indexed`: upsert the
`effectiveRoles` row (patching `expiresAt`/`updatedAt` when it exists), then
upsert an `effectivePermissions` row for every granted permission. Returns the
role row's id. -/
def assignRoleWithCompute (st : IndexDb) (userId role : String)
    (rolePermissions : List String) (scope : Option Scope)
    (expiresAt : Option Nat) (assignedBy : Option String) (now : Nat) :
    Except String (Nat × IndexDb) := do
  let scopeKey := scopeKeyOf scope
  let existing ← uniqueRoleRow st.roles userId role scopeKey
  let (roleId, st) :=
    match existing with
    | some r =>
      (r.id, { st with roles := st.roles.map (fun x =>
          if x.id = r.id then { x with expiresAt, updatedAt := now } else x) })
    | none =>
      (st.nextId, { st with
        roles := st.roles ++ [{
          id := st.nextId, userId, role, scopeKey, scope, expiresAt,
          assignedBy, createdAt := now, updatedAt := now }],
        nextId := st.nextId + 1 })
  let st ← assignPermsLoop userId role scope scopeKey expiresAt now
    rolePermissions st
  .ok (roleId, st)

/-- The permission loop of `revokeRoleWithCompute`: remove the role from each
row's sources; delete the row when no sources remain, patch it otherwise. The
`directGrant` / `directDeny` flags are not consulted. -/
def revokePermsLoop (userId role scopeKey : String) (now : Nat) :
    List String → IndexDb → Except String IndexDb
  | [], st => .ok st
  | permission :: rest, st => do
    match ← uniquePermRow st.perms userId permission scopeKey with
    | none => revokePermsLoop userId role scopeKey now rest st
    | some existingPerm =>
      let sources := existingPerm.sources.filter (fun s => s ≠ role)
      if sources.length = 0 then
        revokePermsLoop userId role scopeKey now rest
          { st with perms := deletePerm st.perms existingPerm.id }
      else
        revokePermsLoop userId role scopeKey now rest
          { st with perms := setPermSources st.perms existingPerm.id sources now }

/-- `revokeRoleWithCompute` from `src/component/indexed`: returns `false` and
changes nothing when the `effectiveRoles` row is absent; otherwise deletes it
and removes the role from the sources of every listed permission. -/
def revokeRoleWithCompute (st : IndexDb) (userId role : String)
    (rolePermissions : List String) (scope : Option Scope) (now : Nat) :
    Except String (Bool × IndexDb) := do
  let scopeKey := scopeKeyOf scope
  let existing ← uniqueRoleRow st.roles userId role scopeKey
  match existing with
  | none => .ok (false, st)
  | some r => do
    let st := { st with roles := deleteRole st.roles r.id }
    let st ← revokePermsLoop userId role scopeKey now rolePermissions st
    .ok (true, st)

/-- `grantPermissionDirect` from `src/component/indexed`: upsert the cached
row with `effect := "allow"` and `directGrant := true` (the patch leaves
`sources` untouched); a fresh row starts with empty `sources`. -/
def grantPermissionDirect (st : IndexDb) (userId permission : String)
    (scope : Option Scope) (reason grantedBy : Option String)
    (expiresAt : Option Nat) (now : Nat) : Except String (Nat × IndexDb) := do
  let scopeKey := scopeKeyOf scope
  match ← uniquePermRow st.perms userId permission scopeKey with
  | some existing =>
    .ok (existing.id, { st with perms := st.perms.map (fun r =>
      if r.id = existing.id then
        { r with effect := "allow", directGrant := some true, reason,
                 expiresAt, updatedAt := now }
      else r) })
  | none =>
    .ok (st.nextId, { st with
      perms := st.perms ++ [{
        id := st.nextId, userId, permission, scopeKey, scope,
        effect := "allow", sources := [], directGrant := some true,
        directDeny := none, reason, grantedBy, expiresAt,
        createdAt := now, updatedAt := now }],
      nextId := st.nextId + 1 })

/-- `denyPermissionDirect` from `src/component/indexed`: the deny counterpart
(`effect := "deny"`, `directDeny := true`; the `deniedBy` argument is stored
in the `grantedBy` column). -/
def denyPermissionDirect (st : IndexDb) (userId permission : String)
    (scope : Option Scope) (reason deniedBy : Option String)
    (expiresAt : Option Nat) (now : Nat) : Except String (Nat × IndexDb) := do
  let scopeKey := scopeKeyOf scope
  match ← uniquePermRow st.perms userId permission scopeKey with
  | some existing =>
    .ok (existing.id, { st with perms := st.perms.map (fun r =>
      if r.id = existing.id then
        { r with effect := "deny", directDeny := some true, reason,
                 expiresAt, updatedAt := now }
      else r) })
  | none =>
    .ok (st.nextId, { st with
      perms := st.perms ++ [{
        id := st.nextId, userId, permission, scopeKey, scope,
        effect := "deny", directDeny := some true, directGrant := none,
        sources := [], reason, grantedBy := deniedBy, expiresAt,
        createdAt := now, updatedAt := now }],
      nextId := st.nextId + 1 })

/-- The projection `getUserPermissionsFast` returns per row. -/
structure PermView where
  permission : String
  effect : String
  scopeKey : String
  sources : List String
deriving DecidableEq, Repr

/-- `getUserPermissionsFast` from `src/component/indexed`: collect the user's
rows for the requested scope keys (specific plus `"global"`, or just
`"global"`), drop expired ones (`!p.expiresAt || p.expiresAt > now`, with JS
truthiness) and project. -/
def getUserPermissionsFast (st : IndexDb) (userId : String)
    (scopeKey : Option String) (now : Nat) : List PermView :=
  let scopeKeys :=
    match scopeKey with
    | some sk => if sk = "global" then ["global"] else [sk, "global"]
    | none => ["global"]
  let permissions := scopeKeys.flatMap (fun sk =>
    st.perms.filter (fun r => r.userId = userId && r.scopeKey = sk))
  (permissions.filter (fun p =>
    match p.expiresAt with
    | none => true
    | some t => decide (t = 0) || decide (t > now))).map
    (fun p => ⟨p.permission, p.effect, p.scopeKey, p.sources⟩)

/-! ## ReBAC traversal engine, from `src/component/rebac` -/

/-- A row of the `relationships` table: a `(subject, relation, object)`
tuple. -/
structure RelTuple where
  subjectType : String
  subjectId : String
  relation : String
  objectType : String
  objectId : String
  createdBy : Option String
  createdAt : Nat
deriving DecidableEq, Repr

/-- A traversal rewrite rule `{through, via, inherit}`. -/
structure TravRule where
  through : String
  via : String
  inherit : String
deriving DecidableEq, Repr

/-- Result object of `checkRelationWithTraversal`. -/
structure TravResult where
  allowed : Bool
  path : List String
  reason : String
deriving DecidableEq, Repr

/-- A BFS queue entry of `checkRelationWithTraversal`. -/
structure QItem where
  objectType : String
  objectId : String
  relation : String
  depth : Nat
  path : List String
deriving DecidableEq, Repr

/-- Convex's `.unique()` on the `by_subject_relation_object` index of the
`relationships` table. -/
def uniqueTuple (db : List RelTuple)
    (subjectType subjectId relation objectType objectId : String) :
    Except String (Option RelTuple) :=
  match db.filter (fun t =>
    t.subjectType = subjectType && t.subjectId = subjectId &&
    t.relation = relation && t.objectType = objectType &&
    t.objectId = objectId) with
  | [] => .ok none
  | [t] => .ok (some t)
  | _ => .error "unique() query returned more than one result"

/-- The path-edge string `subjectType:subjectId -[relation]-> objectType:objectId`. -/
def edgeString (subjectType subjectId relation objectType objectId : String) :
    String :=
  subjectType ++ ":" ++ subjectId ++ " -[" ++ relation ++ "]-> " ++
    objectType ++ ":" ++ objectId

/-- The visited-set key `objectType:objectId:relation` of the BFS cycle
guard. -/
def visitKey (item : QItem) : String :=
  item.objectType ++ ":" ++ item.objectId ++ ":" ++ item.relation

/-- The queue entries one processed item pushes: for every rule registered
under `objectType:relation`, every tuple pointing at the current object via
the rule's `via` relation whose subject has the rule's `through` type becomes
a new entry for the parent with the `inherit` relation, one level deeper. -/
def pushesFor (db : List RelTuple) (rules : List (String × List TravRule))
    (current : QItem) : List QItem :=
  let currentRules :=
    ((rules.find? (fun e => e.1 = current.objectType ++ ":" ++
      current.relation)).map (fun e => e.2)).getD []
  currentRules.flatMap (fun rule =>
    let parentRelations := db.filter (fun t =>
      t.objectType = current.objectType && t.objectId = current.objectId &&
      t.relation = rule.via)
    let parents := parentRelations.filter (fun t => t.subjectType = rule.through)
    parents.map (fun parent =>
      { objectType := parent.subjectType, objectId := parent.subjectId,
        relation := rule.inherit, depth := current.depth + 1,
        path := current.path ++ [edgeString parent.subjectType parent.subjectId
          rule.via current.objectType current.objectId] }))

/-- The BFS `while` loop of `checkRelationWithTraversal`, with explicit fuel
(`none` = fuel exhausted): dequeue, skip at `depth ≥ maxDepth` or when the
visit key was seen, mark visited, answer `allowed` when the subject has the
current relation to the current object, otherwise enqueue the rule-derived
parents. -/
def travLoop (db : List RelTuple) (rules : List (String × List TravRule))
    (subjectType subjectId : String) (maxDepth : Nat) :
    Nat → List String → List QItem → Option (Except String TravResult)
  | 0, _, _ => none
  | _ + 1, _, [] => some (.ok ⟨false, [], "No relationship path found"⟩)
  | fuel + 1, visited, current :: rest =>
    if current.depth ≥ maxDepth then
      travLoop db rules subjectType subjectId maxDepth fuel visited rest
    else if visitKey current ∈ visited then
      travLoop db rules subjectType subjectId maxDepth fuel visited rest
    else
      let visited := visitKey current :: visited
      match uniqueTuple db subjectType subjectId current.relation
        current.objectType current.objectId with
      | .error e => some (.error e)
      | .ok (some _) =>
        some (.ok ⟨true,
          current.path ++ [edgeString subjectType subjectId current.relation
            current.objectType current.objectId],
          "Access via " ++ current.objectType⟩)
      | .ok none =>
        travLoop db rules subjectType subjectId maxDepth fuel visited
          (rest ++ pushesFor db rules current)

/-- All `inherit` relations occurring in the rule set; pushed queue entries
draw their relation from this list. -/
def ruleInherits (rules : List (String × List TravRule)) : List String :=
  rules.flatMap (fun e => e.2.map (fun r => r.inherit))

/-- The finite universe of visit keys the BFS can ever see: the initial key
plus one key per (tuple subject, inherited relation) pair. -/
def keyUniverse (db : List RelTuple) (rules : List (String × List TravRule))
    (initKey : String) : List String :=
  initKey :: db.flatMap (fun t =>
    (ruleInherits rules).map (fun ir =>
      t.subjectType ++ ":" ++ t.subjectId ++ ":" ++ ir))

/-- An upper bound on the entries a single processed item can push. -/
def pushBound (db : List RelTuple) (rules : List (String × List TravRule)) :
    Nat :=
  (rules.flatMap (fun e => e.2)).length * db.length

/-- Fuel provably sufficient for `travLoop` to finish from the initial
queue. -/
def travFuel (db : List RelTuple) (rules : List (String × List TravRule))
    (initKey : String) : Nat :=
  2 + (keyUniverse db rules initKey).dedup.length * (1 + pushBound db rules)

/-- `checkRelationWithTraversal` from `src/component/rebac`: direct tuple
check first; with no rules supplied, a definite refusal; otherwise the BFS
from the requested object, run with provably sufficient fuel. -/
def checkRelationWithTraversal (db : List RelTuple)
    (subjectType subjectId relation objectType objectId : String)
    (traversalRules : Option (List (String × List TravRule)))
    (maxDepth : Option Nat) : Except String TravResult :=
  let md := maxDepth.getD 5
  match uniqueTuple db subjectType subjectId relation objectType objectId with
  | .error e => .error e
  | .ok (some _) =>
    .ok ⟨true,
      [edgeString subjectType subjectId relation objectType objectId],
      "Direct relationship"⟩
  | .ok none =>
    match traversalRules with
    | none => .ok ⟨false, [],
        "No direct relationship and no traversal rules provided"⟩
    | some rules =>
      let init : QItem := ⟨objectType, objectId, relation, 0, []⟩
      match travLoop db rules subjectType subjectId md
        (travFuel db rules (visitKey init)) [] [init] with
      | some r => r
      | none => .error "traversal out of fuel"

/-! ## Policy selector (ABAC), from `src/client/authz` -/

/-- The specificity score of `getPolicyForPermission`: `"*"` and `"*:*"` score
`0`; otherwise `2` for a concrete resource plus `1` for a concrete action,
with a caught parse failure scoring `0`. -/
def specScore (key : String) : Nat :=
  if key = "*" || key = "*:*" then 0
  else
    match parsePermission key with
    | .ok (resource, action) =>
      (if resource = "*" then 0 else 2) + (if action = "*" then 0 else 1)
    | .error _ => 0

/-- The pattern-scan loop of `getPolicyForPermission` over the configured
entries, carrying the best `(key, policy, score)` so far. Entries whose value
is `undefined` are skipped; an entry key equal to the permission returns
outright; the pattern match can throw; a strictly higher score replaces the
best. The policy payload is abstract (`α`): only keys and presence matter to
selection. -/
def policyScanLoop {α : Type} (permission : String) :
    List (String × Option α) → Option (String × α × Nat) →
    Except String (Option (String × α))
  | [], best => .ok (best.map (fun b => (b.1, b.2.1)))
  | (key, policy) :: rest, best =>
    match policy with
    | none => policyScanLoop permission rest best
    | some p =>
      if key = permission then .ok (some (key, p))
      else do
        let m ← matchesPermissionPattern permission key
        if !m then policyScanLoop permission rest best
        else
          let score := specScore key
          match best with
          | none => policyScanLoop permission rest (some (key, p, score))
          | some b =>
            if score > b.2.2 then
              policyScanLoop permission rest (some (key, p, score))
            else policyScanLoop permission rest best

/-- `getPolicyForPermission` from `src/client/authz`: no configured policies
yields `null`; a key exactly equal to the permission wins outright (its value
is returned as stored, possibly `undefined`); otherwise the scan loop picks
the matching key with the highest specificity score. -/
def getPolicyForPermission {α : Type}
    (policies : Option (List (String × Option α))) (permission : String) :
    Except String (Option (String × Option α)) :=
  match policies with
  | none => .ok none
  | some entries =>
    if entries.any (fun e => e.1 = permission) then
      .ok (some (permission,
        (entries.find? (fun e => e.1 = permission)).bind (fun e => e.2)))
    else
      (policyScanLoop permission entries none).map
        (fun r => r.map (fun b => (b.1, some b.2)))

/-! ## Auxiliary predicates used to state the claims -/

/-- `true` when a permission string is well-formed, i.e. `parsePermission`
does not throw (the string contains exactly one `":"`). -/
def parseOk (s : String) : Bool :=
  match parsePermission s with
  | .ok _ => true
  | .error _ => false

/-- The boolean value of a pattern match that does not throw (`false` on a
throw); used only to state properties, never by the embedded code. -/
def mppB (permission pattern : String) : Bool :=
  match matchesPermissionPattern permission pattern with
  | .ok b => b
  | .error _ => false

/-- A live (non-expired) cached row with the given effect exists at the
`(scopeKey, patternCandidate)` pair. -/
def liveEffectAtPair (db : List EffPermRow) (userId : String) (now : Nat)
    (effect : String) (pr : String × String) : Bool :=
  (permRowsAt db userId pr.2 pr.1).any
    (fun r => !isExpired now r.expiresAt && r.effect == effect)

/-- At most one `effectivePermissions` row per
`(userId, permission, scopeKey)` key: the invariant the
`by_user_permission_scope` index upserts maintain, which `.unique()`
relies on. -/
abbrev permsKeyUnique (l : List EffPermRow) : Prop :=
  l.Pairwise (fun a b =>
    ¬(a.userId = b.userId ∧ a.permission = b.permission ∧
      a.scopeKey = b.scopeKey))

/-- One iteration of the permission loop of `revokeRoleWithCompute`, isolated
as a state transformer (proof-side decomposition; the loop is the sequential
composition of these steps). -/
def revokeProcessOne (userId role scopeKey : String) (now : Nat)
    (st : IndexDb) (permission : String) : Except String IndexDb :=
  (uniquePermRow st.perms userId permission scopeKey).map (fun x =>
    match x with
    | none => st
    | some existingPerm =>
      if (existingPerm.sources.filter (fun s => s ≠ role)).length = 0 then
        { st with perms := deletePerm st.perms existingPerm.id }
      else
        { st with perms := (setPermSources st.perms existingPerm.id
            (existingPerm.sources.filter (fun s => s ≠ role)) now) })

/-- The row update `revokeRoleWithCompute` applies to a surviving cached row:
the revoked role is removed from `sources` and `updatedAt` is bumped; every
other column — including `directGrant` and `directDeny` — is untouched. -/
def stripRole (role : String) (now : Nat) (r : EffPermRow) : EffPermRow :=
  { r with sources := r.sources.filter (fun s => s ≠ role), updatedAt := now }

/-- Decidable equality of `Except` results, so that concrete runs of the
embedded operations can be checked by `decide`. -/
instance {ε α : Type} [DecidableEq ε] [DecidableEq α] :
    DecidableEq (Except ε α) := fun x y =>
  match x, y with
  | .ok a, .ok b =>
    if h : a = b then .isTrue (by rw [h])
    else .isFalse (fun hc => h (Except.ok.inj hc))
  | .error a, .error b =>
    if h : a = b then .isTrue (by rw [h])
    else .isFalse (fun hc => h (Except.error.inj hc))
  | .ok _, .error _ => .isFalse (fun hc => Except.noConfusion hc)
  | .error _, .ok _ => .isFalse (fun hc => Except.noConfusion hc)

/-! ## C10: revocation of an absent role is an atomic no-op -/

/-- C10: when no `effectiveRoles` row exists for `(userId, role, scopeKey)`,
`revokeRoleWithCompute` returns `false` and leaves the state — in particular
the `effectivePermissions` table — entirely unchanged, whatever
`rolePermissions` the caller supplies. -/
theorem revokeRole_absent_is_noop (st : IndexDb) (userId role : String)
    (rolePermissions : List String) (scope : Option Scope) (now : Nat)
    (h : roleRowsAt st.roles userId role (scopeKeyOf scope) = []) :
    revokeRoleWithCompute st userId role rolePermissions scope now =
      .ok (false, st) := by
  simp only [revokeRoleWithCompute, uniqueRoleRow, h]
  rfl

/-- Witness for C10: a concrete state holding only another user's role row
and a cached permission row that still lists the role in its sources. -/
theorem revokeRole_absent_is_noop_witness :
    roleRowsAt [⟨5, "bob", "admin", "global", none, none, none, 1, 1⟩]
      "alice" "admin" "global" = [] ∧
    revokeRoleWithCompute
      ⟨[⟨7, "alice", "documents:read", "global", none, "allow", ["admin"],
         none, none, none, none, none, 1, 1⟩],
       [⟨5, "bob", "admin", "global", none, none, none, 1, 1⟩], 8⟩
      "alice" "admin" ["documents:read"] none 100 =
      .ok (false,
        ⟨[⟨7, "alice", "documents:read", "global", none, "allow", ["admin"],
           none, none, none, none, none, 1, 1⟩],
         [⟨5, "bob", "admin", "global", none, none, none, 1, 1⟩], 8⟩) :=
  ⟨by decide,
   revokeRole_absent_is_noop
     ⟨[⟨7, "alice", "documents:read", "global", none, "allow", ["admin"],
        none, none, none, none, none, 1, 1⟩],
      [⟨5, "bob", "admin", "global", none, none, none, 1, 1⟩], 8⟩
     "alice" "admin" ["documents:read"] none 100 (by decide)⟩

/-! ## C6: scope generality of `matchesScope` and `hasRole` -/

/-- C6: `matchesScope` is true whenever the candidate scope is absent, false
whenever it is present and the requested scope is absent, and structural
equality of `(type, id)` otherwise. Consequently a non-expired unscoped role
assignment makes `hasRole` true for every requested scope, while an
assignment scoped to `S` (in a state where all of the user's assignments of
that role are scoped to `S`) makes `hasRole` true only for requested scope
`S`, and false for a no-scope query. -/
theorem matchesScope_hasRole_generality :
    (∀ requested : Option Scope, matchesScope none requested = true)
    ∧ (∀ candidate : Scope, matchesScope (some candidate) none = false)
    ∧ (∀ candidate requested : Scope,
        matchesScope (some candidate) (some requested) =
          (candidate.type == requested.type && candidate.id == requested.id))
    ∧ (∀ (db : List AssignmentRow) (u role : String) (a : AssignmentRow)
        (now : Nat), a ∈ db → a.userId = u → a.role = role →
        a.scope = none → isExpired now a.expiresAt = false →
        ∀ requested : Option Scope, hasRole db u role requested now = true)
    ∧ (∀ (db : List AssignmentRow) (u role : String) (S : Scope) (now : Nat),
        (∀ a ∈ db, a.userId = u → a.role = role → a.scope = some S) →
        hasRole db u role none now = false
        ∧ (∀ S' : Scope, hasRole db u role (some S') now = true → S' = S)
        ∧ ((∃ a ∈ db, a.userId = u ∧ a.role = role ∧
            isExpired now a.expiresAt = false) →
           hasRole db u role (some S) now = true)) := by
  refine ⟨fun _ => rfl, fun _ => rfl, fun _ _ => rfl, ?_, ?_⟩
  · intro db u role a now ha hu hr hs he requested
    simp only [hasRole, List.any_eq_true, List.mem_filter]
    exact ⟨a, ⟨ha, by simp [hu, hr]⟩, by simp [he, hs, matchesScope]⟩
  · intro db u role S now hall
    refine ⟨?_, ?_, ?_⟩
    · simp only [hasRole, List.any_eq_false, List.mem_filter]
      intro a ⟨ha, hkey⟩
      have hu : a.userId = u := by
        have := (Bool.and_eq_true _ _).mp hkey
        exact decide_eq_true_eq.mp this.1
      have hr : a.role = role := by
        have := (Bool.and_eq_true _ _).mp hkey
        exact decide_eq_true_eq.mp this.2
      simp [hall a ha hu hr, matchesScope]
    · intro S' h
      simp only [hasRole, List.any_eq_true, List.mem_filter] at h
      obtain ⟨a, ⟨ha, hkey⟩, hpred⟩ := h
      have hu : a.userId = u := by
        have := (Bool.and_eq_true _ _).mp hkey
        exact decide_eq_true_eq.mp this.1
      have hr : a.role = role := by
        have := (Bool.and_eq_true _ _).mp hkey
        exact decide_eq_true_eq.mp this.2
      have hs := hall a ha hu hr
      rw [hs] at hpred
      have hm := ((Bool.and_eq_true _ _).mp hpred).2
      simp only [matchesScope, Bool.and_eq_true, beq_iff_eq] at hm
      cases S; cases S'
      simp only [Scope.mk.injEq]
      exact ⟨hm.1.symm, hm.2.symm⟩
    · intro ⟨a, ha, hu, hr, he⟩
      simp only [hasRole, List.any_eq_true, List.mem_filter]
      refine ⟨a, ⟨ha, by simp [hu, hr]⟩, ?_⟩
      simp [he, hall a ha hu hr, matchesScope]

/-- Witness for C6: Alice holds `admin` scoped to org `acme`; the scoped
query succeeds, the no-scope query and a differently-scoped query fail. -/
theorem matchesScope_hasRole_generality_witness :
    hasRole [⟨0, "alice", "admin", some ⟨"org", "acme"⟩, none, none⟩]
      "alice" "admin" (some ⟨"org", "acme"⟩) 50 = true
    ∧ hasRole [⟨0, "alice", "admin", some ⟨"org", "acme"⟩, none, none⟩]
      "alice" "admin" none 50 = false
    ∧ hasRole [⟨0, "alice", "admin", some ⟨"org", "acme"⟩, none, none⟩]
      "alice" "admin" (some ⟨"org", "betaco"⟩) 50 = false := by
  have h := (matchesScope_hasRole_generality.2.2.2.2
    [⟨0, "alice", "admin", some ⟨"org", "acme"⟩, none, none⟩]
    "alice" "admin" ⟨"org", "acme"⟩ 50 (by decide))
  refine ⟨h.2.2 ⟨_, List.mem_singleton_self _, rfl, rfl, rfl⟩, h.1, ?_⟩
  by_contra hc
  have := h.2.1 ⟨"org", "betaco"⟩ (by
    cases hb : hasRole [⟨0, "alice", "admin", some ⟨"org", "acme"⟩, none,
      none⟩] "alice" "admin" (some ⟨"org", "betaco"⟩) 50
    · exact absurd hb hc
    · rfl)
  simp at this

/-! ## C7: ReBAC rewrite direction, concrete scenario -/

/-- C7: with tuples `(user:alice, member, team:eng)` and
`(team:eng, owner, project:alpha)` and the rule
`project:viewer ↦ {through: team, via: owner, inherit: member}`,
`checkRelationWithTraversal(user:alice, viewer, project:alpha)` is allowed
with a path of exactly two edges. -/
theorem rebac_rewrite_scenario :
    checkRelationWithTraversal
      [⟨"user", "alice", "member", "team", "eng", none, 1⟩,
       ⟨"team", "eng", "owner", "project", "alpha", none, 2⟩]
      "user" "alice" "viewer" "project" "alpha"
      (some [("project:viewer", [⟨"team", "owner", "member"⟩])]) none =
      .ok ⟨true,
        ["team:eng -[owner]-> project:alpha",
         "user:alice -[member]-> team:eng"],
        "Access via team"⟩
    ∧ (["team:eng -[owner]-> project:alpha",
        "user:alice -[member]-> team:eng"] : List String).length = 2 := by
  exact ⟨rfl, rfl⟩

/-! ## C4: counterexample — `checkPermission` throws on a malformed
permission string -/

/-- C4 counterexample: with one non-expired deny override for the (well
formed) pattern `"a:b"` stored, `checkPermission` for the malformed
permission string `"foo"` throws `Invalid permission format` from
`parsePermission` instead of returning a normal result. -/
theorem checkPermission_throws_on_malformed :
    checkPermission [⟨0, "u", "a:b", .deny, none, none, none, none⟩] []
      "u" "foo" none [] 0 =
      .error "Invalid permission format: \"foo\". Expected \"resource:action\"" :=
  rfl

/-! ## C3: counterexample — `revokeRoleWithCompute` deletes a row whose
`directGrant` flag is set -/

/-- C3 counterexample: grant `documents:read` directly to `u`
(`directGrant = true`, empty `sources`), assign role `editor` contributing
the same permission (`sources = [editor]`, flag still set), then revoke the
role: the row's sources become empty and the row is deleted even though
`directGrant` is set — the direct grant does not survive the revocation. -/
theorem revokeRole_deletes_direct_grant :
    grantPermissionDirect ⟨[], [], 0⟩ "u" "documents:read" none none none
      none 100 =
      .ok (0, ⟨[⟨0, "u", "documents:read", "global", none, "allow", [],
        some true, none, none, none, none, 100, 100⟩], [], 1⟩)
    ∧ assignRoleWithCompute
        ⟨[⟨0, "u", "documents:read", "global", none, "allow", [],
          some true, none, none, none, none, 100, 100⟩], [], 1⟩
        "u" "editor" ["documents:read"] none none none 100 =
      .ok (1, ⟨[⟨0, "u", "documents:read", "global", none, "allow",
        ["editor"], some true, none, none, none, none, 100, 100⟩],
        [⟨1, "u", "editor", "global", none, none, none, 100, 100⟩], 2⟩)
    ∧ revokeRoleWithCompute
        ⟨[⟨0, "u", "documents:read", "global", none, "allow", ["editor"],
          some true, none, none, none, none, 100, 100⟩],
         [⟨1, "u", "editor", "global", none, none, none, 100, 100⟩], 2⟩
        "u" "editor" ["documents:read"] none 100 =
      .ok (true, ⟨[], [], 2⟩) :=
  ⟨rfl, rfl, rfl⟩

/-! ## C1: deny overrides take precedence in `checkPermission` -/

/-- Reduction of the `Except` monad bind on a success value. -/
theorem except_bind_ok {ε α β : Type} (a : α) (f : α → Except ε β) :
    (Except.ok a : Except ε α) >>= f = f a := rfl

/-- A string for which `parsePermission` succeeds yields a witness. -/
theorem parseOk_exists {s : String} (h : parseOk s = true) :
    ∃ x, parsePermission s = .ok x := by
  unfold parseOk at h
  cases hp : parsePermission s with
  | ok x => exact ⟨x, rfl⟩
  | error e => rw [hp] at h; exact absurd h (by simp)

/-- The pattern match cannot throw when the permission parses and the pattern
is `"*"` or parses. -/
theorem mpp_ok {perm pat : String} (hq : parseOk perm = true)
    (hp : pat = "*" ∨ parseOk pat = true) :
    ∃ b, matchesPermissionPattern perm pat = .ok b := by
  rcases hp with hstar | hok
  · exact ⟨true, by simp [matchesPermissionPattern, hstar]⟩
  · obtain ⟨⟨pr, pa⟩, hq'⟩ := parseOk_exists hq
    obtain ⟨⟨tr, ta⟩, hp'⟩ := parseOk_exists hok
    by_cases hstar : pat = "*"
    · exact ⟨true, by simp [matchesPermissionPattern, hstar]⟩
    · refine ⟨(tr == "*" || tr == pr) && (ta == "*" || ta == pa), ?_⟩
      unfold matchesPermissionPattern
      rw [if_neg hstar, hq', hp']
      rfl

/-- The deny loop of `checkPermission` returns the first matching deny
override when the requested permission parses and every deny pattern in the
list is `"*"` or parses. -/
theorem findDenyOverride_finds (perm : String) (scope : Option Scope) :
    ∀ l : List OverrideRow,
    parseOk perm = true →
    (∀ o ∈ l, o.effect = .deny →
      o.permission = "*" ∨ parseOk o.permission = true) →
    (∃ o ∈ l, o.effect = .deny ∧
      matchesPermissionPattern perm o.permission = .ok true ∧
      matchesScope o.scope scope = true) →
    ∃ d ∈ l, findDenyOverride perm scope l = .ok (some d) ∧
      d.effect = .deny ∧
      matchesPermissionPattern perm d.permission = .ok true ∧
      matchesScope d.scope scope = true := by
  intro l
  induction l with
  | nil => intro _ _ hm; obtain ⟨o, ho, _⟩ := hm; exact absurd ho (by simp)
  | cons o rest ih =>
    intro hq hwf hm
    have h0 : findDenyOverride perm scope (o :: rest) =
        if o.effect = .deny then
          (matchesPermissionPattern perm o.permission) >>= (fun m =>
            if m && matchesScope o.scope scope then .ok (some o)
            else findDenyOverride perm scope rest)
        else findDenyOverride perm scope rest := rfl
    by_cases he : o.effect = .deny
    · obtain ⟨b, hb⟩ := mpp_ok hq (hwf o (by simp) he)
      have hstep : findDenyOverride perm scope (o :: rest) =
          (if b && matchesScope o.scope scope then .ok (some o)
           else findDenyOverride perm scope rest) := by
        rw [h0, if_pos he, hb, except_bind_ok]
      by_cases hcond : (b && matchesScope o.scope scope) = true
      · refine ⟨o, by simp, ?_, he, ?_, ?_⟩
        · rw [hstep, if_pos hcond]
        · rw [hb]; congr 1; exact (Bool.and_eq_true _ _).mp hcond |>.1
        · exact (Bool.and_eq_true _ _).mp hcond |>.2
      · have hm' : ∃ o' ∈ rest, o'.effect = .deny ∧
            matchesPermissionPattern perm o'.permission = .ok true ∧
            matchesScope o'.scope scope = true := by
          obtain ⟨w, hw, hwd, hwp, hws⟩ := hm
          rcases List.mem_cons.mp hw with rfl | hwrest
          · exfalso
            rw [hb] at hwp
            have : b = true := Except.ok.inj hwp
            subst this
            exact hcond (by simp [hws])
          · exact ⟨w, hwrest, hwd, hwp, hws⟩
        obtain ⟨d, hd, heq, hrest⟩ :=
          ih hq (fun o' ho' => hwf o' (by simp [ho'])) hm'
        refine ⟨d, by simp [hd], ?_, hrest⟩
        rw [hstep, if_neg (by simpa using hcond)]
        exact heq
    · have hstep : findDenyOverride perm scope (o :: rest) =
          findDenyOverride perm scope rest := by
        rw [h0, if_neg he]
      have hm' : ∃ o' ∈ rest, o'.effect = .deny ∧
          matchesPermissionPattern perm o'.permission = .ok true ∧
          matchesScope o'.scope scope = true := by
        obtain ⟨w, hw, hwd, hwp, hws⟩ := hm
        rcases List.mem_cons.mp hw with rfl | hwrest
        · exact absurd hwd he
        · exact ⟨w, hwrest, hwd, hwp, hws⟩
      obtain ⟨d, hd, heq, hrest⟩ :=
        ih hq (fun o' ho' => hwf o' (by simp [ho'])) hm'
      exact ⟨d, by simp [hd], by rw [hstep]; exact heq, hrest⟩

/-- C1: whenever the user's non-expired overrides contain a deny override
whose pattern matches the requested (well-formed) permission and whose scope
matches the requested scope — and the stored non-expired deny patterns are
well formed or `"*"`, so that the scan evaluates — `checkPermission` returns
`allowed = false` with `matchedOverride` the id of such a deny override,
regardless of any matching allow override and of any role-derived grant. -/
theorem checkPermission_deny_precedence (overrides : List OverrideRow)
    (assignments : List AssignmentRow) (userId permission : String)
    (scope : Option Scope) (rolePermissions : List (String × List String))
    (now : Nat)
    (hq : parseOk permission = true)
    (hwf : ∀ o ∈ overrides, o.userId = userId →
      isExpired now o.expiresAt = false → o.effect = .deny →
      o.permission = "*" ∨ parseOk o.permission = true)
    (hmatch : ∃ o ∈ overrides, o.userId = userId ∧
      isExpired now o.expiresAt = false ∧ o.effect = .deny ∧
      matchesPermissionPattern permission o.permission = .ok true ∧
      matchesScope o.scope scope = true) :
    ∃ d ∈ overrides, d.userId = userId ∧ isExpired now d.expiresAt = false ∧
      d.effect = .deny ∧
      matchesPermissionPattern permission d.permission = .ok true ∧
      matchesScope d.scope scope = true ∧
      checkPermission overrides assignments userId permission scope
        rolePermissions now =
        .ok ⟨false, d.reason.getD "Explicitly denied by override", none,
          some d.id⟩ := by
  set valid := (overrides.filter (fun o => o.userId = userId)).filter
    (fun o => !isExpired now o.expiresAt) with hvalid
  have hmem : ∀ o, o ∈ valid ↔
      o ∈ overrides ∧ o.userId = userId ∧ isExpired now o.expiresAt = false := by
    intro o
    simp only [hvalid, List.mem_filter, decide_eq_true_eq,
      Bool.not_eq_true', and_assoc]
  have hwf' : ∀ o ∈ valid, o.effect = .deny →
      o.permission = "*" ∨ parseOk o.permission = true := by
    intro o ho hd
    obtain ⟨h1, h2, h3⟩ := (hmem o).mp ho
    exact hwf o h1 h2 h3 hd
  have hm' : ∃ o ∈ valid, o.effect = .deny ∧
      matchesPermissionPattern permission o.permission = .ok true ∧
      matchesScope o.scope scope = true := by
    obtain ⟨o, h1, h2, h3, h4, h5, h6⟩ := hmatch
    exact ⟨o, (hmem o).mpr ⟨h1, h2, h3⟩, h4, h5, h6⟩
  obtain ⟨d, hd, heq, hdd, hdp, hds⟩ :=
    findDenyOverride_finds permission scope valid hq hwf' hm'
  obtain ⟨hd1, hd2, hd3⟩ := (hmem d).mp hd
  refine ⟨d, hd1, hd2, hd3, hdd, hdp, hds, ?_⟩
  show (findDenyOverride permission scope valid) >>= _ = _
  rw [heq, except_bind_ok]

/-- Witness for C1: `u` holds both an allow and a deny override for
`documents:read` and a role granting it; the check is denied with the deny
override's id. -/
theorem checkPermission_deny_precedence_witness :
    ∃ d ∈ ([⟨1, "u", "documents:read", Effect.allow, none, none, none, none⟩,
            ⟨2, "u", "documents:read", Effect.deny, none, some "restricted",
             none, none⟩] : List OverrideRow),
      d.userId = "u" ∧ isExpired 50 d.expiresAt = false ∧
      d.effect = Effect.deny ∧
      matchesPermissionPattern "documents:read" d.permission = .ok true ∧
      matchesScope d.scope none = true ∧
      checkPermission
        [⟨1, "u", "documents:read", Effect.allow, none, none, none, none⟩,
         ⟨2, "u", "documents:read", Effect.deny, none, some "restricted",
          none, none⟩]
        [⟨3, "u", "admin", none, none, none⟩] "u" "documents:read" none
        [("admin", ["documents:read"])] 50 =
        .ok ⟨false, d.reason.getD "Explicitly denied by override", none,
          some d.id⟩ :=
  checkPermission_deny_precedence
    [⟨1, "u", "documents:read", Effect.allow, none, none, none, none⟩,
     ⟨2, "u", "documents:read", Effect.deny, none, some "restricted",
      none, none⟩]
    [⟨3, "u", "admin", none, none, none⟩] "u" "documents:read" none
    [("admin", ["documents:read"])] 50
    (by decide) (by decide)
    ⟨⟨2, "u", "documents:read", Effect.deny, none, some "restricted", none,
      none⟩, by decide, by decide, by decide, by decide, by decide, by decide⟩

/-! ## C2: `checkPermissionFast` — any deny wins, otherwise any allow -/

/-- When no stored timestamp is the (falsy) value `0`, the skip test of
`checkPermissionFast` agrees with `isExpired`. -/
theorem expiredTruthy_eq_isExpired {now : Nat} {e : Option Nat}
    (h : e ≠ some 0) : expiredTruthy now e = isExpired now e := by
  cases e with
  | none => rfl
  | some t =>
    have ht : 0 < t := Nat.pos_of_ne_zero (fun h0 => h (by rw [h0]))
    simp [expiredTruthy, isExpired, ht]

/-- Under the per-key uniqueness invariant, the `.unique()` lookup returns
the head of the index result (none or the single row) without throwing. -/
theorem uniquePermRow_of_keyUnique {db : List EffPermRow}
    (h : permsKeyUnique db) (u p sk : String) :
    uniquePermRow db u p sk = .ok (permRowsAt db u p sk).head? := by
  have hpw : (permRowsAt db u p sk).Pairwise (fun a b =>
      ¬(a.userId = b.userId ∧ a.permission = b.permission ∧
        a.scopeKey = b.scopeKey)) := h.filter _
  cases hc : permRowsAt db u p sk with
  | nil => simp [uniquePermRow, hc]
  | cons a t =>
    cases t with
    | nil => simp [uniquePermRow, hc]
    | cons b t2 =>
      exfalso
      rw [hc] at hpw
      have hr := (List.pairwise_cons.mp hpw).1 b (by simp)
      have ha : a ∈ permRowsAt db u p sk := by rw [hc]; simp
      have hb : b ∈ permRowsAt db u p sk := by rw [hc]; simp
      have ha' := (List.mem_filter.mp ha).2
      have hb' := (List.mem_filter.mp hb).2
      simp only [Bool.and_eq_true, decide_eq_true_eq] at ha' hb'
      exact hr ⟨ha'.1.1.trans hb'.1.1.symm, ha'.1.2.trans hb'.1.2.symm,
        ha'.2.trans hb'.2.symm⟩

/-- Characterization of the flattened candidate scan: a live deny row at any
pair yields `false`; otherwise the accumulator is or-ed with the existence of
a live allow row. -/
theorem checkPairsFast_spec {db : List EffPermRow} {u : String} {now : Nat}
    (huniq : permsKeyUnique db)
    (heff : ∀ r ∈ db, r.effect = "allow" ∨ r.effect = "deny")
    (hexp : ∀ r ∈ db, r.expiresAt ≠ some 0) :
    ∀ (pairs : List (String × String)) (acc : Bool),
    checkPairsFast db u now pairs acc =
      .ok (if pairs.any (liveEffectAtPair db u now "deny") then false
           else acc || pairs.any (liveEffectAtPair db u now "allow")) := by
  intro pairs
  induction pairs with
  | nil => intro acc; simp [checkPairsFast]
  | cons pr rest ih =>
    intro acc
    obtain ⟨sk, p⟩ := pr
    have h0 : checkPairsFast db u now ((sk, p) :: rest) acc =
        (uniquePermRow db u p sk) >>= (fun cached =>
          match cached with
          | none => checkPairsFast db u now rest acc
          | some cached =>
            if expiredTruthy now cached.expiresAt then
              checkPairsFast db u now rest acc
            else if cached.effect = "deny" then .ok false
            else checkPairsFast db u now rest true) := rfl
    cases hrows : (permRowsAt db u p sk) with
    | nil =>
      have hlook : uniquePermRow db u p sk = .ok none := by
        rw [uniquePermRow_of_keyUnique huniq, hrows]; rfl
      have hcp : checkPairsFast db u now ((sk, p) :: rest) acc =
          checkPairsFast db u now rest acc := by
        rw [h0, hlook, except_bind_ok]
      have hpair : ∀ eff, liveEffectAtPair db u now eff (sk, p) = false := by
        intro eff; simp [liveEffectAtPair, hrows]
      rw [hcp, ih acc]
      simp only [List.any_cons, hpair, Bool.false_or]
    | cons r t =>
      have hr : r ∈ db := by
        have : r ∈ permRowsAt db u p sk := by rw [hrows]; simp
        exact (List.mem_filter.mp this).1
      have ht : t = [] := by
        cases t with
        | nil => rfl
        | cons b t2 =>
          exfalso
          have h1 := uniquePermRow_of_keyUnique huniq u p sk
          have h2 : uniquePermRow db u p sk =
              .error "unique() query returned more than one result" := by
            unfold uniquePermRow
            rw [hrows]
          rw [h2, hrows] at h1
          exact Except.noConfusion h1
      subst ht
      have hlook : uniquePermRow db u p sk = .ok (some r) := by
        rw [uniquePermRow_of_keyUnique huniq, hrows]; rfl
      have hcp : checkPairsFast db u now ((sk, p) :: rest) acc =
          (if expiredTruthy now r.expiresAt then
            checkPairsFast db u now rest acc
          else if r.effect = "deny" then .ok false
          else checkPairsFast db u now rest true) := by
        rw [h0, hlook, except_bind_ok]
      have hlive : ∀ eff, liveEffectAtPair db u now eff (sk, p) =
          (!isExpired now r.expiresAt && r.effect == eff) := by
        intro eff; simp [liveEffectAtPair, hrows]
      rw [hcp, expiredTruthy_eq_isExpired (hexp r hr)]
      cases hE : isExpired now r.expiresAt with
      | true =>
        have hpair : ∀ eff, liveEffectAtPair db u now eff (sk, p) = false := by
          intro eff; rw [hlive, hE]; rfl
        simp only [if_true, List.any_cons, hpair, Bool.false_or]
        exact ih acc
      | false =>
        simp only [Bool.false_eq_true, if_false]
        by_cases hD : r.effect = "deny"
        · have hpair : liveEffectAtPair db u now "deny" (sk, p) = true := by
            rw [hlive, hE, hD]; rfl
          simp [hD, List.any_cons, hpair]
        · have heffr := (heff r hr).resolve_right hD
          have hpairD : liveEffectAtPair db u now "deny" (sk, p) = false := by
            rw [hlive, hE, heffr]; rfl
          have hpairA : liveEffectAtPair db u now "allow" (sk, p) = true := by
            rw [hlive, hE, heffr]; rfl
          rw [if_neg hD, ih true]
          simp [List.any_cons, hpairD, hpairA]

/-- C2: `checkPermissionFast` scans the `(scopeKey, patternCandidate)` pairs
built by `buildScopeKeys` and `buildPermissionCandidates`; it returns `false`
exactly when some pair holds a live deny row, and otherwise returns whether
some pair holds a live allow row — so a deny row anywhere in the scan wins
over any allow row. (Hypotheses: the per-key uniqueness invariant of the
cache, effects drawn from `{allow, deny}`, and no stored timestamp equal to
the JS-falsy `0`.) -/
theorem checkPermissionFast_deny_dominates (db : List EffPermRow)
    (u permission : String) (objectType objectId : Option String) (now : Nat)
    (huniq : permsKeyUnique db)
    (heff : ∀ r ∈ db, r.effect = "allow" ∨ r.effect = "deny")
    (hexp : ∀ r ∈ db, r.expiresAt ≠ some 0) :
    checkPermissionFast db u permission objectType objectId now =
      .ok (!(fastPairs permission objectType objectId).any
            (liveEffectAtPair db u now "deny")
          && (fastPairs permission objectType objectId).any
            (liveEffectAtPair db u now "allow")) := by
  rw [checkPermissionFast, checkPairsFast_spec huniq heff hexp]
  congr 1
  cases hd : (fastPairs permission objectType objectId).any
    (liveEffectAtPair db u now "deny") <;> simp [hd]

/-- Witness for C2: an allow row for `documents:read` coexists with a deny
row at the wildcard candidate `documents:*`; the scan reports the deny. -/
theorem checkPermissionFast_deny_dominates_witness :
    checkPermissionFast
      [⟨0, "u", "documents:read", "global", none, "allow", ["editor"], none,
        none, none, none, none, 1, 1⟩,
       ⟨1, "u", "documents:*", "global", none, "deny", [], none, none, none,
        none, none, 1, 1⟩]
      "u" "documents:read" none none 50 =
      .ok (!(fastPairs "documents:read" none none).any
            (liveEffectAtPair
              [⟨0, "u", "documents:read", "global", none, "allow", ["editor"],
                none, none, none, none, none, 1, 1⟩,
               ⟨1, "u", "documents:*", "global", none, "deny", [], none, none,
                none, none, none, 1, 1⟩] "u" 50 "deny")
          && (fastPairs "documents:read" none none).any
            (liveEffectAtPair
              [⟨0, "u", "documents:read", "global", none, "allow", ["editor"],
                none, none, none, none, none, 1, 1⟩,
               ⟨1, "u", "documents:*", "global", none, "deny", [], none, none,
                none, none, none, 1, 1⟩] "u" 50 "allow")) :=
  checkPermissionFast_deny_dominates
    [⟨0, "u", "documents:read", "global", none, "allow", ["editor"], none,
      none, none, none, none, 1, 1⟩,
     ⟨1, "u", "documents:*", "global", none, "deny", [], none, none, none,
      none, none, 1, 1⟩]
    "u" "documents:read" none none 50 (by decide) (by decide) (by decide)

/-! ## C4 (amended): when the scanned patterns are well formed the checks
return normal results; `checkPermissionFast` needs no well-formedness -/

/-- The deny loop cannot throw when the permission parses and every stored
pattern is `"*"` or parses. -/
theorem findDenyOverride_ok (perm : String) (scope : Option Scope) :
    ∀ l : List OverrideRow, parseOk perm = true →
    (∀ o ∈ l, o.permission = "*" ∨ parseOk o.permission = true) →
    ∃ x, findDenyOverride perm scope l = .ok x := by
  intro l
  induction l with
  | nil => exact fun _ _ => ⟨none, rfl⟩
  | cons o rest ih =>
    intro hq hwf
    obtain ⟨x, hx⟩ := ih hq (fun o' ho' => hwf o' (by simp [ho']))
    have h0 : findDenyOverride perm scope (o :: rest) =
        if o.effect = .deny then
          (matchesPermissionPattern perm o.permission) >>= (fun m =>
            if m && matchesScope o.scope scope then .ok (some o)
            else findDenyOverride perm scope rest)
        else findDenyOverride perm scope rest := rfl
    by_cases he : o.effect = .deny
    · obtain ⟨b, hb⟩ := mpp_ok hq (hwf o (by simp))
      by_cases hc : (b && matchesScope o.scope scope) = true
      · exact ⟨some o, by rw [h0, if_pos he, hb, except_bind_ok, if_pos hc]⟩
      · exact ⟨x, by rw [h0, if_pos he, hb, except_bind_ok,
          if_neg (by simpa using hc)]; exact hx⟩
    · exact ⟨x, by rw [h0, if_neg he]; exact hx⟩

/-- The allow loop cannot throw under the same conditions. -/
theorem findAllowOverride_ok (perm : String) (scope : Option Scope) :
    ∀ l : List OverrideRow, parseOk perm = true →
    (∀ o ∈ l, o.permission = "*" ∨ parseOk o.permission = true) →
    ∃ x, findAllowOverride perm scope l = .ok x := by
  intro l
  induction l with
  | nil => exact fun _ _ => ⟨none, rfl⟩
  | cons o rest ih =>
    intro hq hwf
    obtain ⟨x, hx⟩ := ih hq (fun o' ho' => hwf o' (by simp [ho']))
    have h0 : findAllowOverride perm scope (o :: rest) =
        if o.effect = .allow then
          (matchesPermissionPattern perm o.permission) >>= (fun m =>
            if m && matchesScope o.scope scope then .ok (some o)
            else findAllowOverride perm scope rest)
        else findAllowOverride perm scope rest := rfl
    by_cases he : o.effect = .allow
    · obtain ⟨b, hb⟩ := mpp_ok hq (hwf o (by simp))
      by_cases hc : (b && matchesScope o.scope scope) = true
      · exact ⟨some o, by rw [h0, if_pos he, hb, except_bind_ok, if_pos hc]⟩
      · exact ⟨x, by rw [h0, if_pos he, hb, except_bind_ok,
          if_neg (by simpa using hc)]; exact hx⟩
    · exact ⟨x, by rw [h0, if_neg he]; exact hx⟩

/-- The per-role pattern loop cannot throw when every pattern is `"*"` or
parses. -/
theorem anyPatternMatches_ok (perm : String) :
    ∀ pats : List String, parseOk perm = true →
    (∀ pat ∈ pats, pat = "*" ∨ parseOk pat = true) →
    ∃ b, anyPatternMatches perm pats = .ok b := by
  intro pats
  induction pats with
  | nil => exact fun _ _ => ⟨false, rfl⟩
  | cons pat rest ih =>
    intro hq hwf
    obtain ⟨x, hx⟩ := ih hq (fun p hp => hwf p (by simp [hp]))
    obtain ⟨b, hb⟩ := mpp_ok hq (hwf pat (by simp))
    have h0 : anyPatternMatches perm (pat :: rest) =
        (matchesPermissionPattern perm pat) >>= (fun m =>
          if m then .ok true else anyPatternMatches perm rest) := rfl
    cases b with
    | true => exact ⟨true, by rw [h0, hb, except_bind_ok]; rfl⟩
    | false => exact ⟨x, by rw [h0, hb, except_bind_ok]; exact hx⟩

/-- The role loop cannot throw when the permission parses and every pattern in
the caller's role map is `"*"` or parses. -/
theorem findGrantingRole_ok (perm : String)
    (rolePermissions : List (String × List String)) :
    ∀ l : List AssignmentRow, parseOk perm = true →
    (∀ e ∈ rolePermissions, ∀ pat ∈ e.2, pat = "*" ∨ parseOk pat = true) →
    ∃ x, findGrantingRole perm rolePermissions l = .ok x := by
  intro l
  induction l with
  | nil => exact fun _ _ => ⟨none, rfl⟩
  | cons a rest ih =>
    intro hq hwf
    obtain ⟨x, hx⟩ := ih hq hwf
    have h0 : findGrantingRole perm rolePermissions (a :: rest) =
        match rolePermissions.find? (fun e => e.1 = a.role) with
        | none => findGrantingRole perm rolePermissions rest
        | some e => (anyPatternMatches perm e.2) >>= (fun m =>
            if m then .ok (some a.role)
            else findGrantingRole perm rolePermissions rest) := by
      simp only [findGrantingRole]
      cases List.find? (fun e => decide (e.1 = a.role)) rolePermissions with
      | none => rfl
      | some e => rfl
    cases hfind : rolePermissions.find? (fun e => e.1 = a.role) with
    | none =>
      refine ⟨x, ?_⟩
      rw [h0, hfind]
      exact hx
    | some e =>
      have he : e ∈ rolePermissions := List.mem_of_find?_eq_some hfind
      obtain ⟨b, hb⟩ := anyPatternMatches_ok perm e.2 hq (hwf e he)
      cases b with
      | true =>
        refine ⟨some a.role, ?_⟩
        rw [h0, hfind]
        show (anyPatternMatches perm e.2) >>= _ = _
        rw [hb, except_bind_ok]
        rfl
      | false =>
        refine ⟨x, ?_⟩
        rw [h0, hfind]
        show (anyPatternMatches perm e.2) >>= _ = _
        rw [hb, except_bind_ok]
        exact hx

/-- The candidate scan of `checkPermissionFast` cannot throw under the
per-key uniqueness invariant, whatever the candidate strings are. -/
theorem checkPairsFast_ok {db : List EffPermRow} {u : String} {now : Nat}
    (huniq : permsKeyUnique db) :
    ∀ (pairs : List (String × String)) (acc : Bool),
    ∃ b, checkPairsFast db u now pairs acc = .ok b := by
  intro pairs
  induction pairs with
  | nil => exact fun acc => ⟨acc, rfl⟩
  | cons pr rest ih =>
    intro acc
    obtain ⟨sk, p⟩ := pr
    have h0 : checkPairsFast db u now ((sk, p) :: rest) acc =
        (uniquePermRow db u p sk) >>= (fun cached =>
          match cached with
          | none => checkPairsFast db u now rest acc
          | some cached =>
            if expiredTruthy now cached.expiresAt then
              checkPairsFast db u now rest acc
            else if cached.effect = "deny" then .ok false
            else checkPairsFast db u now rest true) := rfl
    rw [h0, uniquePermRow_of_keyUnique huniq, except_bind_ok]
    cases (permRowsAt db u p sk).head? with
    | none => exact ih acc
    | some r =>
      show ∃ b, (if expiredTruthy now r.expiresAt then
          checkPairsFast db u now rest acc
        else if r.effect = "deny" then .ok false
        else checkPairsFast db u now rest true) = .ok b
      by_cases hE : expiredTruthy now r.expiresAt = true
      · obtain ⟨b, hb⟩ := ih acc
        exact ⟨b, by rw [if_pos hE]; exact hb⟩
      · by_cases hD : r.effect = "deny"
        · exact ⟨false, by rw [if_neg hE, if_pos hD]⟩
        · obtain ⟨b, hb⟩ := ih true
          exact ⟨b, by rw [if_neg hE, if_neg hD]; exact hb⟩

/-- C4 (amended): `checkPermission` returns a normal result — reporting
denial as `allowed = false`, never as an exception — whenever the requested
permission string parses and every stored override pattern and role pattern
is `"*"` or parses; without that proviso it can throw
(`checkPermission_throws_on_malformed`). `checkPermissionFast` returns a
normal boolean for every permission string, including malformed ones, under
the cache's per-key uniqueness invariant. -/
theorem check_operations_return_normally (overrides : List OverrideRow)
    (assignments : List AssignmentRow) (userId permission : String)
    (scope : Option Scope) (rolePermissions : List (String × List String))
    (now : Nat) (fdb : List EffPermRow)
    (hq : parseOk permission = true)
    (ho : ∀ o ∈ overrides, o.permission = "*" ∨ parseOk o.permission = true)
    (hr : ∀ e ∈ rolePermissions, ∀ pat ∈ e.2,
      pat = "*" ∨ parseOk pat = true)
    (huniq : permsKeyUnique fdb) :
    (∃ r, checkPermission overrides assignments userId permission scope
      rolePermissions now = .ok r)
    ∧ (∀ (u2 anyPermission : String) (oT oI : Option String) (now2 : Nat),
        ∃ b, checkPermissionFast fdb u2 anyPermission oT oI now2 = .ok b) := by
  constructor
  · set valid := (overrides.filter (fun o => o.userId = userId)).filter
      (fun o => !isExpired now o.expiresAt) with hvalid
    set validA := (assignments.filter (fun a => a.userId = userId)).filter
      (fun a => !isExpired now a.expiresAt && matchesScope a.scope scope)
      with hvalidA
    have hv : ∀ o ∈ valid, o.permission = "*" ∨ parseOk o.permission = true :=
      fun o hmem => ho o
        (List.mem_of_mem_filter (List.mem_of_mem_filter hmem))
    obtain ⟨x1, h1⟩ := findDenyOverride_ok permission scope valid hq hv
    cases x1 with
    | some o =>
      refine ⟨⟨false, o.reason.getD "Explicitly denied by override", none,
        some o.id⟩, ?_⟩
      show (findDenyOverride permission scope valid) >>= _ = _
      rw [h1, except_bind_ok]
    | none =>
      obtain ⟨x2, h2⟩ := findAllowOverride_ok permission scope valid hq hv
      cases x2 with
      | some o =>
        refine ⟨⟨true, o.reason.getD "Explicitly allowed by override", none,
          some o.id⟩, ?_⟩
        show (findDenyOverride permission scope valid) >>= _ = _
        rw [h1, except_bind_ok]
        show (findAllowOverride permission scope valid) >>= _ = _
        rw [h2, except_bind_ok]
      | none =>
        obtain ⟨x3, h3⟩ :=
          findGrantingRole_ok permission rolePermissions validA hq hr
        cases x3 with
        | some role =>
          refine ⟨⟨true, "Granted by role: " ++ role, some role, none⟩, ?_⟩
          show (findDenyOverride permission scope valid) >>= _ = _
          rw [h1, except_bind_ok]
          show (findAllowOverride permission scope valid) >>= _ = _
          rw [h2, except_bind_ok]
          show (findGrantingRole permission rolePermissions validA) >>= _ = _
          rw [h3, except_bind_ok]
        | none =>
          refine ⟨⟨false, "No role or override grants this permission", none,
            none⟩, ?_⟩
          show (findDenyOverride permission scope valid) >>= _ = _
          rw [h1, except_bind_ok]
          show (findAllowOverride permission scope valid) >>= _ = _
          rw [h2, except_bind_ok]
          show (findGrantingRole permission rolePermissions validA) >>= _ = _
          rw [h3, except_bind_ok]
  · intro u2 anyPermission oT oI now2
    exact checkPairsFast_ok huniq (fastPairs anyPermission oT oI) false

/-- Witness for C4 (amended): concrete overrides, role map and cache rows;
both checks return `.ok`. -/
theorem check_operations_return_normally_witness :
    (∃ r, checkPermission
      [⟨1, "u", "documents:*", Effect.deny, none, none, none, none⟩]
      [⟨2, "u", "admin", none, none, none⟩] "u" "documents:read" none
      [("admin", ["*"])] 50 = .ok r)
    ∧ (∀ (u2 anyPermission : String) (oT oI : Option String) (now2 : Nat),
        ∃ b, checkPermissionFast
          [⟨0, "u", "documents:read", "global", none, "allow", [], none,
            none, none, none, none, 1, 1⟩]
          u2 anyPermission oT oI now2 = .ok b) :=
  check_operations_return_normally
    [⟨1, "u", "documents:*", Effect.deny, none, none, none, none⟩]
    [⟨2, "u", "admin", none, none, none⟩] "u" "documents:read" none
    [("admin", ["*"])] 50
    [⟨0, "u", "documents:read", "global", none, "allow", [], none, none,
      none, none, none, 1, 1⟩]
    (by decide) (by decide) (by decide) (by decide)

/-! ## C5: assign-then-revoke round trip leaves the index empty -/

/-- The permission loop of `assignRoleWithCompute`, started in a state whose
rows for user `u` all live at scope key `sk` with sources exactly `[role]`
and permissions in `S`, succeeds and preserves that shape with `S ++ l`. -/
theorem assignPermsLoop_fresh (u role : String) (scope : Option Scope)
    (sk : String) (eA : Option Nat) (now : Nat) :
    ∀ (l : List String) (st : IndexDb) (S : List String),
    (∀ r ∈ st.perms, r.userId = u →
      (r.scopeKey = sk ∧ r.sources = [role] ∧ r.permission ∈ S)) →
    (∀ p, (permRowsAt st.perms u p sk).length ≤ 1) →
    ∃ st', assignPermsLoop u role scope sk eA now l st = .ok st' ∧
      (∀ r ∈ st'.perms, r.userId = u →
        (r.scopeKey = sk ∧ r.sources = [role] ∧ r.permission ∈ S ++ l)) ∧
      (∀ p, (permRowsAt st'.perms u p sk).length ≤ 1) ∧
      st'.roles = st.roles := by
  intro l
  induction l with
  | nil =>
    intro st S h1 h2
    exact ⟨st, rfl, fun r hr hu => by simpa using h1 r hr hu, h2, rfl⟩
  | cons p rest ih =>
    intro st S h1 h2
    have h0 : assignPermsLoop u role scope sk eA now (p :: rest) st =
        (uniquePermRow st.perms u p sk) >>= (fun x =>
          match x with
          | some existingPerm =>
            if role ∈ existingPerm.sources then
              assignPermsLoop u role scope sk eA now rest st
            else
              assignPermsLoop u role scope sk eA now rest
                { st with perms := (setPermSources st.perms existingPerm.id
                    (existingPerm.sources ++ [role]) now) }
          | none =>
            assignPermsLoop u role scope sk eA now rest
              { st with
                perms := st.perms ++ [{
                  id := st.nextId, userId := u, permission := p,
                  scopeKey := sk, scope := scope, effect := "allow",
                  sources := [role], directGrant := none, directDeny := none,
                  reason := none, grantedBy := none, expiresAt := eA,
                  createdAt := now, updatedAt := now }],
                nextId := st.nextId + 1 }) := rfl
    cases hrows : permRowsAt st.perms u p sk with
    | nil =>
      have hlook : uniquePermRow st.perms u p sk = .ok none := by
        simp [uniquePermRow, hrows]
      set newRow : EffPermRow := {
        id := st.nextId, userId := u, permission := p, scopeKey := sk,
        scope := scope, effect := "allow", sources := [role],
        directGrant := none, directDeny := none, reason := none,
        grantedBy := none, expiresAt := eA, createdAt := now,
        updatedAt := now } with hnew
      set st2 : IndexDb := { st with perms := st.perms ++ [newRow], nextId := st.nextId + 1 } with hst2
      have h1' : ∀ r ∈ st2.perms, r.userId = u →
          (r.scopeKey = sk ∧ r.sources = [role] ∧ r.permission ∈ S ++ [p]) := by
        intro r hr hu
        rcases List.mem_append.mp hr with hold | hnewm
        · obtain ⟨a, b, c⟩ := h1 r hold hu
          exact ⟨a, b, by simp [c]⟩
        · rw [List.mem_singleton.mp hnewm]
          exact ⟨rfl, rfl, by simp⟩
      have h2' : ∀ q, (permRowsAt st2.perms u q sk).length ≤ 1 := by
        intro q
        have happ : permRowsAt st2.perms u q sk =
            permRowsAt st.perms u q sk ++ permRowsAt [newRow] u q sk := by
          simp [permRowsAt, hst2, List.filter_append]
        rw [happ]
        by_cases hq : p = q
        · subst hq
          rw [hrows]
          simp [permRowsAt]
        · have : permRowsAt [newRow] u q sk = [] := by
            simp [permRowsAt, hnew, hq]
          rw [this]
          simpa using h2 q
      obtain ⟨st', heq, h1f, h2f, hroles⟩ := ih st2 (S ++ [p]) h1' h2'
      refine ⟨st', ?_, ?_, h2f, by rw [hroles]⟩
      · rw [h0, hlook, except_bind_ok]
        exact heq
      · intro r hr hu
        obtain ⟨a, b, c⟩ := h1f r hr hu
        refine ⟨a, b, ?_⟩
        simpa [List.append_assoc] using c
    | cons r t =>
      have ht : t = [] := by
        have := h2 p
        rw [hrows] at this
        cases t with
        | nil => rfl
        | cons b t2 => simp at this
      subst ht
      have hlook : uniquePermRow st.perms u p sk = .ok (some r) := by
        simp [uniquePermRow, hrows]
      have hrmem : r ∈ st.perms := by
        have : r ∈ permRowsAt st.perms u p sk := by rw [hrows]; simp
        exact (List.mem_filter.mp this).1
      have hru : r.userId = u := by
        have : r ∈ permRowsAt st.perms u p sk := by rw [hrows]; simp
        have := (List.mem_filter.mp this).2
        simp only [Bool.and_eq_true, decide_eq_true_eq] at this
        exact this.1.1
      have hsrc : r.sources = [role] := (h1 r hrmem hru).2.1
      have hin : role ∈ r.sources := by rw [hsrc]; simp
      obtain ⟨st', heq, h1f, h2f, hroles⟩ := ih st S h1 h2
      refine ⟨st', ?_, ?_, h2f, hroles⟩
      · rw [h0, hlook, except_bind_ok]
        show (if role ∈ r.sources then _ else _) = _
        rw [if_pos hin]
        exact heq
      · intro r' hr' hu'
        obtain ⟨a, b, c⟩ := h1f r' hr' hu'
        exact ⟨a, b, by simp at c ⊢; tauto⟩

/-- The permission loop of `revokeRoleWithCompute`, started in a state whose
rows for user `u` all live at scope key `sk` with sources exactly `[role]`
and permissions among the processed list, deletes every row of user `u`. -/
theorem revokePermsLoop_clears (u role sk : String) (now : Nat) :
    ∀ (l : List String) (st : IndexDb),
    (∀ r ∈ st.perms, r.userId = u →
      (r.scopeKey = sk ∧ r.sources = [role] ∧ r.permission ∈ l)) →
    (∀ p, (permRowsAt st.perms u p sk).length ≤ 1) →
    ∃ st', revokePermsLoop u role sk now l st = .ok st' ∧
      (∀ r ∈ st'.perms, r.userId ≠ u) ∧ st'.roles = st.roles := by
  intro l
  induction l with
  | nil =>
    intro st h1 _
    exact ⟨st, rfl, fun r hr hu => by simpa using (h1 r hr hu).2.2, rfl⟩
  | cons p rest ih =>
    intro st h1 h2
    have h0 : revokePermsLoop u role sk now (p :: rest) st =
        (uniquePermRow st.perms u p sk) >>= (fun x =>
          match x with
          | none => revokePermsLoop u role sk now rest st
          | some existingPerm =>
            if (existingPerm.sources.filter (fun s => s ≠ role)).length = 0 then
              revokePermsLoop u role sk now rest
                { st with perms := deletePerm st.perms existingPerm.id }
            else
              revokePermsLoop u role sk now rest
                { st with perms := (setPermSources st.perms existingPerm.id
                    (existingPerm.sources.filter (fun s => s ≠ role)) now) }) :=
      rfl
    cases hrows : permRowsAt st.perms u p sk with
    | nil =>
      have hlook : uniquePermRow st.perms u p sk = .ok none := by
        simp [uniquePermRow, hrows]
      have h1' : ∀ r ∈ st.perms, r.userId = u →
          (r.scopeKey = sk ∧ r.sources = [role] ∧ r.permission ∈ rest) := by
        intro r hr hu
        obtain ⟨a, b, c⟩ := h1 r hr hu
        refine ⟨a, b, ?_⟩
        rcases List.mem_cons.mp c with hc | hc
        · exfalso
          have : r ∈ permRowsAt st.perms u p sk := by
            simp [permRowsAt, List.mem_filter, hr, hu, a, hc]
          rw [hrows] at this
          exact absurd this (List.not_mem_nil r)
        · exact hc
      obtain ⟨st', heq, hno, hroles⟩ := ih st h1' h2
      refine ⟨st', ?_, hno, hroles⟩
      rw [h0, hlook, except_bind_ok]
      exact heq
    | cons r t =>
      have ht : t = [] := by
        have := h2 p
        rw [hrows] at this
        cases t with
        | nil => rfl
        | cons b t2 => simp at this
      subst ht
      have hlook : uniquePermRow st.perms u p sk = .ok (some r) := by
        simp [uniquePermRow, hrows]
      have hrmem : r ∈ st.perms := by
        have : r ∈ permRowsAt st.perms u p sk := by rw [hrows]; simp
        exact (List.mem_filter.mp this).1
      have hru : r.userId = u := by
        have : r ∈ permRowsAt st.perms u p sk := by rw [hrows]; simp
        have := (List.mem_filter.mp this).2
        simp only [Bool.and_eq_true, decide_eq_true_eq] at this
        exact this.1.1
      have hsrc : r.sources = [role] := (h1 r hrmem hru).2.1
      have hfilt : (r.sources.filter (fun s => s ≠ role)).length = 0 := by
        rw [hsrc]; simp
      set st2 : IndexDb := { st with perms := deletePerm st.perms r.id }
        with hst2
      have hsub : st2.perms.Sublist st.perms := List.filter_sublist _
      have h1' : ∀ r' ∈ st2.perms, r'.userId = u →
          (r'.scopeKey = sk ∧ r'.sources = [role] ∧ r'.permission ∈ rest) := by
        intro r' hr' hu'
        have hr'mem : r' ∈ st.perms := hsub.mem hr'
        obtain ⟨a, b, c⟩ := h1 r' hr'mem hu'
        refine ⟨a, b, ?_⟩
        rcases List.mem_cons.mp c with hc | hc
        · exfalso
          have hr'key : r' ∈ permRowsAt st.perms u p sk := by
            simp [permRowsAt, List.mem_filter, hr'mem, hu', a, hc]
          rw [hrows] at hr'key
          have : r' = r := List.mem_singleton.mp hr'key
          subst this
          have := (List.mem_filter.mp hr').2
          simp at this
        · exact hc
      have h2' : ∀ q, (permRowsAt st2.perms u q sk).length ≤ 1 := by
        intro q
        have : (permRowsAt st2.perms u q sk).Sublist
            (permRowsAt st.perms u q sk) := hsub.filter _
        exact le_trans this.length_le (h2 q)
      obtain ⟨st', heq, hno, hroles⟩ := ih st2 h1' h2'
      refine ⟨st', ?_, hno, hroles⟩
      rw [h0, hlook, except_bind_ok]
      show (if (r.sources.filter (fun s => s ≠ role)).length = 0
        then _ else _) = _
      rw [if_pos hfilt]
      exact heq

/-- C5: starting from a state with no cached rows for user `u`, assigning a
role with a flattened permission list and then revoking it with the same list
and scope leaves `getUserPermissionsFast` for `u` returning the empty set. -/
theorem assignRevoke_roundtrip (st : IndexDb) (u role : String)
    (ps : List String) (scope : Option Scope) (eA : Option Nat)
    (aBy : Option String) (now1 now2 : Nat)
    (hp : ∀ r ∈ st.perms, r.userId ≠ u)
    (hr : ∀ r ∈ st.roles, r.userId ≠ u) :
    ∃ roleId st1 st2,
      assignRoleWithCompute st u role ps scope eA aBy now1 =
        .ok (roleId, st1)
      ∧ revokeRoleWithCompute st1 u role ps scope now2 = .ok (true, st2)
      ∧ ∀ (skq : Option String) (now3 : Nat),
          getUserPermissionsFast st2 u skq now3 = [] := by
  set sk := scopeKeyOf scope with hsk
  have hrole0 : roleRowsAt st.roles u role sk = [] := by
    refine List.filter_eq_nil_iff.mpr (fun a ha => ?_)
    simp [hr a ha]
  have hlookR : uniqueRoleRow st.roles u role sk = .ok none := by
    simp [uniqueRoleRow, hrole0]
  set newRole : EffRoleRow := {
    id := st.nextId, userId := u, role := role, scopeKey := sk,
    scope := scope, expiresAt := eA, assignedBy := aBy, createdAt := now1,
    updatedAt := now1 } with hnewRole
  set stA : IndexDb := { st with roles := st.roles ++ [newRole], nextId := st.nextId + 1 } with hstA
  have h1A : ∀ r ∈ stA.perms, r.userId = u →
      (r.scopeKey = sk ∧ r.sources = [role] ∧ r.permission ∈ ([] : List String)) := by
    intro r hrm hu
    exact absurd hu (hp r hrm)
  have h2A : ∀ p, (permRowsAt stA.perms u p sk).length ≤ 1 := by
    intro p
    have : permRowsAt stA.perms u p sk = [] := by
      refine List.filter_eq_nil_iff.mpr (fun a ha => ?_)
      simp [hp a ha]
    simp [this]
  obtain ⟨st1, heqLoop, h1f, h2f, hroles1⟩ :=
    assignPermsLoop_fresh u role scope sk eA now1 ps stA [] h1A h2A
  refine ⟨st.nextId, st1, ?_⟩
  have hassign : assignRoleWithCompute st u role ps scope eA aBy now1 =
      .ok (st.nextId, st1) := by
    show (uniqueRoleRow st.roles u role sk) >>= _ = _
    rw [hlookR, except_bind_ok]
    show (assignPermsLoop u role scope sk eA now1 ps stA) >>= _ = _
    rw [heqLoop, except_bind_ok]
  have hroleRows1 : roleRowsAt st1.roles u role sk = [newRole] := by
    rw [hroles1]
    show roleRowsAt (st.roles ++ [newRole]) u role sk = [newRole]
    have happ : roleRowsAt (st.roles ++ [newRole]) u role sk =
        roleRowsAt st.roles u role sk ++ roleRowsAt [newRole] u role sk :=
      List.filter_append _ _
    rw [happ, hrole0]
    simp [roleRowsAt, hnewRole]
  have hlookR1 : uniqueRoleRow st1.roles u role sk = .ok (some newRole) := by
    simp [uniqueRoleRow, hroleRows1]
  set stB : IndexDb := { st1 with roles := deleteRole st1.roles newRole.id }
    with hstB
  have h1B : ∀ r ∈ stB.perms, r.userId = u →
      (r.scopeKey = sk ∧ r.sources = [role] ∧ r.permission ∈ ps) := by
    intro r hrm hu
    obtain ⟨a, b, c⟩ := h1f r hrm hu
    exact ⟨a, b, by simpa using c⟩
  obtain ⟨st2, heqLoop2, hno, _⟩ :=
    revokePermsLoop_clears u role sk now2 ps stB h1B h2f
  refine ⟨st2, hassign, ?_, ?_⟩
  · show (uniqueRoleRow st1.roles u role sk) >>= _ = _
    rw [hlookR1, except_bind_ok]
    show (revokePermsLoop u role sk now2 ps stB) >>= _ = _
    rw [heqLoop2, except_bind_ok]
  · intro skq now3
    have hnil : ∀ sk', st2.perms.filter
        (fun r => r.userId = u && r.scopeKey = sk') = [] := by
      intro sk'
      refine List.filter_eq_nil_iff.mpr (fun a ha => ?_)
      simp [hno a ha]
    simp [getUserPermissionsFast, hnil]

/-- Witness for C5: the spec's example — role `admin` granting
`documents:read` and `documents:write`. -/
theorem assignRevoke_roundtrip_witness :
    ∃ roleId st1 st2,
      assignRoleWithCompute
        ⟨[], [⟨9, "bob", "admin", "global", none, none, none, 1, 1⟩], 10⟩
        "alice" "admin" ["documents:read", "documents:write"] none none none
        100 = .ok (roleId, st1)
      ∧ revokeRoleWithCompute st1 "alice" "admin"
          ["documents:read", "documents:write"] none 200 = .ok (true, st2)
      ∧ ∀ (skq : Option String) (now3 : Nat),
          getUserPermissionsFast st2 "alice" skq now3 = [] :=
  assignRevoke_roundtrip
    ⟨[], [⟨9, "bob", "admin", "global", none, none, none, 1, 1⟩], 10⟩
    "alice" "admin" ["documents:read", "documents:write"] none none none
    100 200 (by decide) (by decide)

/-! ## C3 (amended): revocation deletes a cached row exactly when no other
source remains, ignoring the direct grant/deny flags -/

/-- Under the per-key uniqueness invariant an index key holds at most one
row. -/
theorem permRowsAt_length_le_one {db : List EffPermRow}
    (h : permsKeyUnique db) (u p sk : String) :
    (permRowsAt db u p sk).length ≤ 1 := by
  have h1 := uniquePermRow_of_keyUnique h u p sk
  cases hc : permRowsAt db u p sk with
  | nil => simp
  | cons a t =>
    cases t with
    | nil => simp
    | cons b t2 =>
      exfalso
      have h2 : uniquePermRow db u p sk =
          .error "unique() query returned more than one result" := by
        unfold uniquePermRow
        rw [hc]
      rw [h2] at h1
      exact Except.noConfusion h1

/-- Two rows of a table whose ids are `Nodup` and which share an id are the
same row. -/
theorem eff_id_inj {db : List EffPermRow}
    (h : (db.map (fun r => r.id)).Nodup) :
    ∀ a ∈ db, ∀ b ∈ db, a.id = b.id → a = b := by
  induction db with
  | nil => intro a ha; exact absurd ha (List.not_mem_nil a)
  | cons c t ih =>
    intro a ha b hb hid
    have hnd := h
    rw [List.map_cons, List.nodup_cons] at hnd
    rcases List.mem_cons.mp ha with rfl | hat
    · rcases List.mem_cons.mp hb with rfl | hbt
      · rfl
      · exact absurd (hid ▸ List.mem_map_of_mem (fun r => r.id) hbt) hnd.1
    · rcases List.mem_cons.mp hb with rfl | hbt
      · exact absurd (hid ▸ List.mem_map_of_mem (fun r => r.id) hat) hnd.1
      · exact ih hnd.2 a hat b hbt hid

/-- Deleting a row by id commutes with an index lookup. -/
theorem permRowsAt_deletePerm (db : List EffPermRow) (i : Nat)
    (u p sk : String) :
    permRowsAt (deletePerm db i) u p sk =
      (permRowsAt db u p sk).filter (fun r => r.id ≠ i) := by
  show ((db.filter _).filter _) = ((db.filter _).filter _)
  rw [List.filter_comm]

/-- Patching the sources of one row by id commutes with an index lookup
(the patch does not move the row between keys). -/
theorem permRowsAt_setPermSources (db : List EffPermRow) (i : Nat)
    (s : List String) (n : Nat) (u p sk : String) :
    permRowsAt (setPermSources db i s n) u p sk =
      (permRowsAt db u p sk).map
        (fun r => if r.id = i then { r with sources := s, updatedAt := n }
          else r) := by
  show ((db.map _).filter _) = ((db.filter _).map _)
  rw [List.filter_map]
  congr 1
  apply List.filter_congr
  intro r _
  by_cases h : r.id = i <;> simp [h]

/-- Both state invariants survive a delete. -/
theorem invariants_deletePerm {db : List EffPermRow} (i : Nat)
    (h1 : permsKeyUnique db) (h2 : (db.map (fun r => r.id)).Nodup) :
    permsKeyUnique (deletePerm db i) ∧
      ((deletePerm db i).map (fun r => r.id)).Nodup := by
  have hsub : (deletePerm db i).Sublist db := List.filter_sublist _
  exact ⟨h1.sublist hsub, h2.sublist (hsub.map _)⟩

/-- Both state invariants survive a sources patch. -/
theorem invariants_setPermSources {db : List EffPermRow} (i : Nat)
    (s : List String) (n : Nat)
    (h1 : permsKeyUnique db) (h2 : (db.map (fun r => r.id)).Nodup) :
    permsKeyUnique (setPermSources db i s n) ∧
      ((setPermSources db i s n).map (fun r => r.id)).Nodup := by
  constructor
  · show List.Pairwise _ (db.map _)
    rw [List.pairwise_map]
    refine h1.imp ?_
    intro a b hR hc
    apply hR
    by_cases ha : a.id = i <;> by_cases hb : b.id = i <;>
      simpa [ha, hb] using hc
  · show ((db.map _).map _).Nodup
    rw [List.map_map]
    have : ((fun r : EffPermRow => r.id) ∘
        (fun r => if r.id = i then { r with sources := s, updatedAt := n }
          else r)) = (fun r : EffPermRow => r.id) := by
      funext r
      by_cases h : r.id = i <;> simp [h]
    rw [this]
    exact h2

/-- One revoke-loop step succeeds, preserves the invariants, leaves every
other permission key of the user unchanged, and transforms the processed key
as the source filter dictates. -/
theorem revokeProcessOne_spec (u role sk : String) (now : Nat)
    (st : IndexDb) (q : String)
    (huniq : permsKeyUnique st.perms)
    (hnodup : (st.perms.map (fun r => r.id)).Nodup) :
    ∃ st2, revokeProcessOne u role sk now st q = .ok st2 ∧
      permsKeyUnique st2.perms ∧
      (st2.perms.map (fun r => r.id)).Nodup ∧
      (∀ p', p' ≠ q → permRowsAt st2.perms u p' sk =
        permRowsAt st.perms u p' sk) ∧
      (permRowsAt st.perms u q sk = [] → permRowsAt st2.perms u q sk = []) ∧
      (∀ r, permRowsAt st.perms u q sk = [r] →
        permRowsAt st2.perms u q sk =
          (if (r.sources.filter (fun s => s ≠ role)).length = 0 then []
           else [stripRole role now r])) := by
  have hlook := uniquePermRow_of_keyUnique huniq u q sk
  have hlen := permRowsAt_length_le_one huniq u q sk
  cases hrows : permRowsAt st.perms u q sk with
  | nil =>
    refine ⟨st, ?_, huniq, hnodup, fun _ _ => rfl, fun _ => hrows, ?_⟩
    · rw [revokeProcessOne, hlook, hrows]
      rfl
    · intro r hr
      exact absurd hr (by simp [hrows])
  | cons r t =>
    have ht : t = [] := by
      rw [hrows] at hlen
      cases t with
      | nil => rfl
      | cons b t2 => simp at hlen
    subst ht
    have hrmem : r ∈ st.perms := by
      have : r ∈ permRowsAt st.perms u q sk := by rw [hrows]; simp
      exact (List.mem_filter.mp this).1
    have hrkey : r.userId = u ∧ r.permission = q ∧ r.scopeKey = sk := by
      have : r ∈ permRowsAt st.perms u q sk := by rw [hrows]; simp
      have := (List.mem_filter.mp this).2
      simp only [Bool.and_eq_true, decide_eq_true_eq] at this
      exact ⟨this.1.1, this.1.2, this.2⟩
    have hother : ∀ p', p' ≠ q → ∀ r' ∈ permRowsAt st.perms u p' sk,
        r'.id ≠ r.id := by
      intro p' hp' r' hr' hid
      have hr'mem : r' ∈ st.perms := (List.mem_filter.mp hr').1
      have hr'key := (List.mem_filter.mp hr').2
      simp only [Bool.and_eq_true, decide_eq_true_eq] at hr'key
      have : r' = r := eff_id_inj hnodup r' hr'mem r hrmem hid
      exact hp' (by rw [← hr'key.1.2, this, hrkey.2.1])
    by_cases hf : (r.sources.filter (fun s => s ≠ role)).length = 0
    · refine ⟨{ st with perms := deletePerm st.perms r.id }, ?_, ?_, ?_,
        ?_, ?_, ?_⟩
      · simp only [revokeProcessOne, hlook, hrows, List.head?_cons,
          Except.map]
        rw [if_pos hf]
      · exact (invariants_deletePerm r.id huniq hnodup).1
      · exact (invariants_deletePerm r.id huniq hnodup).2
      · intro p' hp'
        show permRowsAt (deletePerm st.perms r.id) u p' sk = _
        rw [permRowsAt_deletePerm]
        exact List.filter_eq_self.mpr
          (fun r' hr' => by simpa using hother p' hp' r' hr')
      · intro h0
        exact absurd h0 (by simp)
      · intro r' hr'
        have hr'r : r' = r := ((List.cons.inj hr').1).symm
        subst hr'r
        show permRowsAt (deletePerm st.perms r'.id) u q sk = _
        rw [permRowsAt_deletePerm, hrows, if_pos hf]
        simp
    · refine ⟨{ st with perms := (setPermSources st.perms r.id
          (r.sources.filter (fun s => s ≠ role)) now) }, ?_, ?_, ?_,
        ?_, ?_, ?_⟩
      · simp only [revokeProcessOne, hlook, hrows, List.head?_cons,
          Except.map]
        rw [if_neg hf]
      · exact (invariants_setPermSources r.id _ now huniq hnodup).1
      · exact (invariants_setPermSources r.id _ now huniq hnodup).2
      · intro p' hp'
        show permRowsAt (setPermSources st.perms r.id _ now) u p' sk = _
        rw [permRowsAt_setPermSources]
        have hcong : ∀ r' ∈ permRowsAt st.perms u p' sk,
            (if r'.id = r.id then { r' with
              sources := r.sources.filter (fun s => s ≠ role),
              updatedAt := now } else r') = r' := by
          intro r' hr'
          rw [if_neg (hother p' hp' r' hr')]
        rw [List.map_congr_left hcong]
        exact List.map_id _
      · intro h0
        exact absurd h0 (by simp)
      · intro r' hr'
        have hr'r : r' = r := ((List.cons.inj hr').1).symm
        subst hr'r
        show permRowsAt (setPermSources st.perms r'.id _ now) u q sk = _
        rw [permRowsAt_setPermSources, hrows, if_neg hf]
        simp [stripRole]

/-- The revoke loop is the sequential composition of its single steps. -/
theorem revokePermsLoop_cons (u role sk : String) (now : Nat) (q : String)
    (rest : List String) (st : IndexDb) :
    revokePermsLoop u role sk now (q :: rest) st =
      (revokeProcessOne u role sk now st q) >>=
        (revokePermsLoop u role sk now rest) := by
  show (uniquePermRow st.perms u q sk) >>= _ =
    ((uniquePermRow st.perms u q sk).map _) >>= _
  cases uniquePermRow st.perms u q sk with
  | error e => rfl
  | ok x =>
    cases x with
    | none => rfl
    | some e =>
      show (if (e.sources.filter (fun s => s ≠ role)).length = 0
          then revokePermsLoop u role sk now rest
            { st with perms := deletePerm st.perms e.id }
          else revokePermsLoop u role sk now rest
            { st with perms := (setPermSources st.perms e.id
                (e.sources.filter (fun s => s ≠ role)) now) }) =
        revokePermsLoop u role sk now rest
          (if (e.sources.filter (fun s => s ≠ role)).length = 0
           then { st with perms := deletePerm st.perms e.id }
           else { st with perms := (setPermSources st.perms e.id
               (e.sources.filter (fun s => s ≠ role)) now) })
      by_cases hc : (e.sources.filter (fun s => s ≠ role)).length = 0
      · rw [if_pos hc, if_pos hc]
      · rw [if_neg hc, if_neg hc]

/-- A permission key that is empty, or whose single row no longer mentions
the revoked role (with `updatedAt` already bumped), is left exactly as it is
by the whole revoke loop. -/
theorem revokePermsLoop_stable (u role sk p : String) (now : Nat) :
    ∀ (l : List String) (st : IndexDb),
    permsKeyUnique st.perms → (st.perms.map (fun r => r.id)).Nodup →
    (permRowsAt st.perms u p sk = [] ∨
      ∃ r', permRowsAt st.perms u p sk = [r'] ∧ role ∉ r'.sources ∧
        r'.sources ≠ [] ∧ r'.updatedAt = now) →
    ∃ st', revokePermsLoop u role sk now l st = .ok st' ∧
      permRowsAt st'.perms u p sk = permRowsAt st.perms u p sk := by
  intro l
  induction l with
  | nil => intro st _ _ _; exact ⟨st, rfl, rfl⟩
  | cons q rest ih =>
    intro st huniq hnodup hshape
    obtain ⟨st2, hstep, huniq2, hnodup2, hA, hB0, hB1⟩ :=
      revokeProcessOne_spec u role sk now st q huniq hnodup
    have hkey : permRowsAt st2.perms u p sk = permRowsAt st.perms u p sk := by
      by_cases hpq : p = q
      · subst hpq
        rcases hshape with h0 | ⟨r', hr', hrole, hne, hupd⟩
        · rw [hB0 h0, h0]
        · have hfilt : r'.sources.filter (fun s => s ≠ role) = r'.sources :=
            List.filter_eq_self.mpr
              (fun x hx => by
                simp only [decide_eq_true_eq]
                exact fun hcon => hrole (hcon ▸ hx))
          have hlen : ¬(r'.sources.filter (fun s => s ≠ role)).length = 0 := by
            rw [hfilt]
            exact fun hz => hne (List.length_eq_zero.mp hz)
          have hstrip : stripRole role now r' = r' := by
            unfold stripRole
            rw [hfilt, ← hupd]
          rw [hB1 r' hr', if_neg hlen, hstrip, hr']
      · exact hA p hpq
    have hshape2 : permRowsAt st2.perms u p sk = [] ∨
        ∃ r', permRowsAt st2.perms u p sk = [r'] ∧ role ∉ r'.sources ∧
          r'.sources ≠ [] ∧ r'.updatedAt = now := by
      rw [hkey]
      exact hshape
    obtain ⟨st', hloop, hfin⟩ := ih st2 huniq2 hnodup2 hshape2
    refine ⟨st', ?_, by rw [hfin, hkey]⟩
    rw [revokePermsLoop_cons, hstep, except_bind_ok]
    exact hloop

/-- Running the revoke loop over a list containing the focused permission
transforms that key exactly as the source filter dictates: the row is deleted
when no sources besides the revoked role remain, and patched (sources
stripped, `updatedAt` bumped, all other columns kept) otherwise. -/
theorem revokePermsLoop_focus (u role sk p : String) (now : Nat) :
    ∀ (l : List String) (st : IndexDb) (r₀ : EffPermRow),
    permsKeyUnique st.perms → (st.perms.map (fun r => r.id)).Nodup →
    permRowsAt st.perms u p sk = [r₀] → p ∈ l →
    ∃ st', revokePermsLoop u role sk now l st = .ok st' ∧
      permRowsAt st'.perms u p sk =
        (if (r₀.sources.filter (fun s => s ≠ role)).length = 0 then []
         else [stripRole role now r₀]) := by
  intro l
  induction l with
  | nil => intro st r₀ _ _ _ hp; exact absurd hp (List.not_mem_nil p)
  | cons q rest ih =>
    intro st r₀ huniq hnodup hrow hp
    obtain ⟨st2, hstep, huniq2, hnodup2, hA, hB0, hB1⟩ :=
      revokeProcessOne_spec u role sk now st q huniq hnodup
    by_cases hpq : q = p
    · subst hpq
      have hkey2 := hB1 r₀ hrow
      have hshape2 : permRowsAt st2.perms u q sk = [] ∨
          ∃ r', permRowsAt st2.perms u q sk = [r'] ∧ role ∉ r'.sources ∧
            r'.sources ≠ [] ∧ r'.updatedAt = now := by
        rw [hkey2]
        by_cases hc : (r₀.sources.filter (fun s => s ≠ role)).length = 0
        · left; rw [if_pos hc]
        · right
          refine ⟨stripRole role now r₀, by rw [if_neg hc], ?_, ?_, rfl⟩
          · intro hmem
            have := List.mem_filter.mp hmem
            simp at this
          · intro hz
            have hz' : r₀.sources.filter (fun s => s ≠ role) = [] := hz
            exact hc (by rw [hz']; rfl)
      obtain ⟨st', hloop, hfin⟩ :=
        revokePermsLoop_stable u role sk q now rest st2 huniq2 hnodup2 hshape2
      refine ⟨st', ?_, by rw [hfin, hkey2]⟩
      rw [revokePermsLoop_cons, hstep, except_bind_ok]
      exact hloop
    · have hrow2 : permRowsAt st2.perms u p sk = [r₀] := by
        rw [hA p (fun h => hpq h.symm), hrow]
      have hp2 : p ∈ rest := by
        rcases List.mem_cons.mp hp with h | h
        · exact absurd h.symm hpq
        · exact h
      obtain ⟨st', hloop, hfin⟩ := ih st2 r₀ huniq2 hnodup2 hrow2 hp2
      refine ⟨st', ?_, hfin⟩
      rw [revokePermsLoop_cons, hstep, except_bind_ok]
      exact hloop

/-- C3 (amended): when the role's `effectiveRoles` row exists,
`revokeRoleWithCompute` succeeds and, for any listed permission whose cached
row is `r₀`, deletes that row exactly when stripping the role from `sources`
leaves the empty list — the `directGrant` / `directDeny` flags are not
consulted, so a row kept alive only by the revoked role is deleted even when
they are set, and a surviving row keeps them untouched
(`stripRole` changes only `sources` and `updatedAt`). -/
theorem revokeRole_deletes_iff_sources_empty (st : IndexDb)
    (u role : String) (ps : List String) (scope : Option Scope) (now : Nat)
    (rr : EffRoleRow) (p : String) (r₀ : EffPermRow)
    (huniq : permsKeyUnique st.perms)
    (hnodup : (st.perms.map (fun r => r.id)).Nodup)
    (hrr : roleRowsAt st.roles u role (scopeKeyOf scope) = [rr])
    (hp : p ∈ ps)
    (hrow : permRowsAt st.perms u p (scopeKeyOf scope) = [r₀]) :
    ∃ st', revokeRoleWithCompute st u role ps scope now = .ok (true, st') ∧
      permRowsAt st'.perms u p (scopeKeyOf scope) =
        (if (r₀.sources.filter (fun s => s ≠ role)).length = 0 then []
         else [stripRole role now r₀]) := by
  set sk := scopeKeyOf scope with hsk
  have hlookR : uniqueRoleRow st.roles u role sk = .ok (some rr) := by
    simp [uniqueRoleRow, hrr]
  set stB : IndexDb := { st with roles := deleteRole st.roles rr.id }
    with hstB
  obtain ⟨st', hloop, hfin⟩ :=
    revokePermsLoop_focus u role sk p now ps stB r₀ huniq hnodup hrow hp
  refine ⟨st', ?_, hfin⟩
  show (uniqueRoleRow st.roles u role sk) >>= _ = _
  rw [hlookR, except_bind_ok]
  show (revokePermsLoop u role sk now ps stB) >>= _ = _
  rw [hloop, except_bind_ok]

/-- Witness for C3 (amended): a row sourced by `editor` and `admin` with both
direct flags set survives revocation of `editor` with sources `["admin"]` and
flags intact (the counterexample above shows the deletion side). -/
theorem revokeRole_deletes_iff_sources_empty_witness :
    ∃ st', revokeRoleWithCompute
      ⟨[⟨0, "u", "documents:read", "global", none, "deny",
         ["editor", "admin"], some true, some true, none, none, none, 5, 5⟩],
       [⟨1, "u", "editor", "global", none, none, none, 5, 5⟩], 2⟩
      "u" "editor" ["documents:read"] none 7 = .ok (true, st') ∧
      permRowsAt st'.perms "u" "documents:read" "global" =
        (if ((["editor", "admin"].filter (fun s => s ≠ "editor"))).length = 0
         then []
         else [stripRole "editor" 7
           ⟨0, "u", "documents:read", "global", none, "deny",
            ["editor", "admin"], some true, some true, none, none, none,
            5, 5⟩]) :=
  revokeRole_deletes_iff_sources_empty
    ⟨[⟨0, "u", "documents:read", "global", none, "deny",
       ["editor", "admin"], some true, some true, none, none, none, 5, 5⟩],
     [⟨1, "u", "editor", "global", none, none, none, 5, 5⟩], 2⟩
    "u" "editor" ["documents:read"] none 7
    ⟨1, "u", "editor", "global", none, none, none, 5, 5⟩
    "documents:read"
    ⟨0, "u", "documents:read", "global", none, "deny", ["editor", "admin"],
     some true, some true, none, none, none, 5, 5⟩
    (by decide) (by decide) (by decide) (by decide) (by decide)

/-! ## C9: policy selection by specificity -/

/-- Reduction of `Except.map` on a success value. -/
theorem except_map_ok {ε α β : Type} (a : α) (f : α → β) :
    (Except.ok a : Except ε α).map f = .ok (f a) := rfl

/-- Under well-formedness the pattern match computes `mppB`. -/
theorem mpp_eq_mppB {perm pat : String} (hq : parseOk perm = true)
    (hp : pat = "*" ∨ parseOk pat = true) :
    matchesPermissionPattern perm pat = .ok (mppB perm pat) := by
  obtain ⟨b, hb⟩ := mpp_ok hq hp
  rw [hb]
  unfold mppB
  rw [hb]

/-- Invariant of the policy scan loop: it never throws under well-formed
keys, its result's stored score is the key's specificity score, the result
comes from the running best or from a matching entry, and the result's score
dominates the running best and every matching valued entry of the list. -/
theorem policyScanLoop_spec {α : Type} (perm : String) :
    ∀ (l : List (String × Option α)) (best : Option (String × α × Nat)),
    parseOk perm = true →
    (∀ e ∈ l, e.1 ≠ perm) →
    (∀ e ∈ l, e.1 = "*" ∨ parseOk e.1 = true) →
    (∀ b, best = some b → b.2.2 = specScore b.1) →
    ∃ res : Option (String × α × Nat),
      policyScanLoop perm l best = .ok (res.map (fun b => (b.1, b.2.1))) ∧
      (∀ b, best = some b → ∃ r, res = some r ∧ b.2.2 ≤ r.2.2) ∧
      (∀ r, res = some r → r.2.2 = specScore r.1 ∧
        (best = some r ∨ ((r.1, some r.2.1) ∈ l ∧ mppB perm r.1 = true))) ∧
      (∀ k (p : α), (k, some p) ∈ l → mppB perm k = true →
        ∃ r, res = some r ∧ specScore k ≤ r.2.2) := by
  intro l
  induction l with
  | nil =>
    intro best hq _ _ hbest
    refine ⟨best, rfl, fun b hb => ⟨b, hb, le_refl _⟩,
      fun r hr => ⟨hbest r hr, Or.inl hr⟩, ?_⟩
    intro k p hk
    exact absurd hk (List.not_mem_nil _)
  | cons e rest ih =>
    intro best hq hne hwfk hbest
    obtain ⟨k, v⟩ := e
    cases v with
    | none =>
      have h0 : policyScanLoop perm ((k, none) :: rest) best =
          policyScanLoop perm rest best := rfl
      obtain ⟨res, heq, h2, h3, h4⟩ := ih best hq
        (fun e he => hne e (by simp [he])) (fun e he => hwfk e (by simp [he]))
        hbest
      refine ⟨res, by rw [h0]; exact heq, h2, ?_, ?_⟩
      · intro r hr
        obtain ⟨ha, hb⟩ := h3 r hr
        refine ⟨ha, hb.imp id (fun ⟨hm, hmm⟩ => ⟨by simp [hm], hmm⟩)⟩
      · intro k' p' hk' hm'
        rcases List.mem_cons.mp hk' with hh | ht
        · exact absurd hh (by simp)
        · exact h4 k' p' ht hm'
    | some p =>
      have hkne : k ≠ perm := by
        have := hne (k, some p) (by simp)
        simpa using this
      have hwfhead : k = "*" ∨ parseOk k = true := by
        have := hwfk (k, some p) (by simp)
        simpa using this
      have hcommon : ∀ (cur nb : Option (String × α × Nat)),
          mppB perm k = true →
          (∀ b, nb = some b → b.2.2 = specScore b.1) →
          (∀ b, nb = some b → (cur = some b ∨ b = (k, p, specScore k))) →
          (∀ b, cur = some b → ∃ nbv, nb = some nbv ∧ b.2.2 ≤ nbv.2.2) →
          (∃ nbv, nb = some nbv ∧ specScore k ≤ nbv.2.2) →
          ∃ res : Option (String × α × Nat),
            policyScanLoop perm rest nb =
              .ok (res.map (fun b => (b.1, b.2.1))) ∧
            (∀ b, cur = some b → ∃ r, res = some r ∧ b.2.2 ≤ r.2.2) ∧
            (∀ r, res = some r → r.2.2 = specScore r.1 ∧
              (cur = some r ∨
                ((r.1, some r.2.1) ∈ (k, some p) :: rest ∧
                  mppB perm r.1 = true))) ∧
            (∀ k' (p' : α), (k', some p') ∈ (k, some p) :: rest →
              mppB perm k' = true →
              ∃ r, res = some r ∧ specScore k' ≤ r.2.2) := by
        intro cur nb hmt hnb1 hnb2 hnb3 hnb4
        obtain ⟨res, heq, h2, h3, h4⟩ := ih nb hq
          (fun e he => hne e (by simp [he]))
          (fun e he => hwfk e (by simp [he])) hnb1
        refine ⟨res, heq, ?_, ?_, ?_⟩
        · intro b hb
          obtain ⟨nbv, hnbv, hle⟩ := hnb3 b hb
          obtain ⟨r, hr, hle2⟩ := h2 nbv hnbv
          exact ⟨r, hr, le_trans hle hle2⟩
        · intro r hr
          obtain ⟨ha, hb⟩ := h3 r hr
          refine ⟨ha, ?_⟩
          rcases hb with hb | ⟨hmem, hmm⟩
          · rcases hnb2 r hb with hbb | hkk
            · exact Or.inl hbb
            · refine Or.inr ⟨?_, ?_⟩
              · rw [hkk]; simp
              · rw [hkk]; exact hmt
          · exact Or.inr ⟨by simp [hmem], hmm⟩
        · intro k' p' hk' hm'
          rcases List.mem_cons.mp hk' with hh | ht
          · have hk'k : k' = k := by
              have := congrArg Prod.fst hh
              simpa using this
            obtain ⟨nbv, hnbv, hle⟩ := hnb4
            obtain ⟨r, hr, hle2⟩ := h2 nbv hnbv
            exact ⟨r, hr, by rw [hk'k]; exact le_trans hle hle2⟩
          · exact h4 k' p' ht hm'
      cases hm : mppB perm k with
      | false =>
        have hred : policyScanLoop perm ((k, some p) :: rest) best =
            policyScanLoop perm rest best := by
          cases best with
          | none =>
            have h1 : policyScanLoop perm ((k, some p) :: rest) none =
                (if k = perm then .ok (some (k, p))
                 else (matchesPermissionPattern perm k) >>= (fun m =>
                  if !m then policyScanLoop perm rest none
                  else policyScanLoop perm rest
                    (some (k, p, specScore k)))) := rfl
            rw [h1, if_neg hkne, mpp_eq_mppB hq hwfhead, except_bind_ok, hm]
            rw [if_pos (by simp)]
          | some b =>
            have h1 : policyScanLoop perm ((k, some p) :: rest) (some b) =
                (if k = perm then .ok (some (k, p))
                 else (matchesPermissionPattern perm k) >>= (fun m =>
                  if !m then policyScanLoop perm rest (some b)
                  else if specScore k > b.2.2 then
                    policyScanLoop perm rest (some (k, p, specScore k))
                  else policyScanLoop perm rest (some b))) := rfl
            rw [h1, if_neg hkne, mpp_eq_mppB hq hwfhead, except_bind_ok, hm]
            rw [if_pos (by simp)]
        obtain ⟨res, heq, h2, h3, h4⟩ := ih best hq
          (fun e he => hne e (by simp [he]))
          (fun e he => hwfk e (by simp [he])) hbest
        refine ⟨res, by rw [hred]; exact heq, h2, ?_, ?_⟩
        · intro r hr
          obtain ⟨ha, hb⟩ := h3 r hr
          refine ⟨ha, hb.imp id (fun ⟨hmem, hmm⟩ => ⟨by simp [hmem], hmm⟩)⟩
        · intro k' p' hk' hm'
          rcases List.mem_cons.mp hk' with hh | ht
          · exfalso
            have : k' = k := by
              have := congrArg Prod.fst hh
              simpa using this
            rw [this] at hm'
            rw [hm'] at hm
            exact Bool.noConfusion hm
          · exact h4 k' p' ht hm'
      | true =>
        cases best with
        | none =>
          have hred : policyScanLoop perm ((k, some p) :: rest) none =
              policyScanLoop perm rest (some (k, p, specScore k)) := by
            have h1 : policyScanLoop perm ((k, some p) :: rest) none =
                (if k = perm then .ok (some (k, p))
                 else (matchesPermissionPattern perm k) >>= (fun m =>
                  if !m then policyScanLoop perm rest none
                  else policyScanLoop perm rest
                    (some (k, p, specScore k)))) := rfl
            rw [h1, if_neg hkne, mpp_eq_mppB hq hwfhead, except_bind_ok, hm]
            rw [if_neg (by simp)]
          obtain ⟨res, heq, hA, hB, hC⟩ := hcommon none
            (some (k, p, specScore k)) hm
            (fun b hb => by rw [(Option.some.inj hb).symm])
            (fun b hb => Or.inr (Option.some.inj hb).symm)
            (fun b hb => Option.noConfusion hb)
            ⟨(k, p, specScore k), rfl, le_refl _⟩
          exact ⟨res, by rw [hred]; exact heq, hA, hB, hC⟩
        | some b =>
          by_cases hgt : specScore k > b.2.2
          · have hred : policyScanLoop perm ((k, some p) :: rest) (some b) =
                policyScanLoop perm rest (some (k, p, specScore k)) := by
              have h1 : policyScanLoop perm ((k, some p) :: rest) (some b) =
                  (if k = perm then .ok (some (k, p))
                   else (matchesPermissionPattern perm k) >>= (fun m =>
                    if !m then policyScanLoop perm rest (some b)
                    else if specScore k > b.2.2 then
                      policyScanLoop perm rest (some (k, p, specScore k))
                    else policyScanLoop perm rest (some b))) := rfl
              rw [h1, if_neg hkne, mpp_eq_mppB hq hwfhead, except_bind_ok,
                hm]
              rw [if_neg (by simp), if_pos hgt]
            obtain ⟨res, heq, hA, hB, hC⟩ := hcommon (some b)
              (some (k, p, specScore k)) hm
              (fun b' hb' => by rw [(Option.some.inj hb').symm])
              (fun b' hb' => Or.inr (Option.some.inj hb').symm)
              (fun b' hb' => ⟨(k, p, specScore k), rfl, by
                rw [(Option.some.inj hb').symm]; exact le_of_lt hgt⟩)
              ⟨(k, p, specScore k), rfl, le_refl _⟩
            exact ⟨res, by rw [hred]; exact heq, hA, hB, hC⟩
          · have hred : policyScanLoop perm ((k, some p) :: rest) (some b) =
                policyScanLoop perm rest (some b) := by
              have h1 : policyScanLoop perm ((k, some p) :: rest) (some b) =
                  (if k = perm then .ok (some (k, p))
                   else (matchesPermissionPattern perm k) >>= (fun m =>
                    if !m then policyScanLoop perm rest (some b)
                    else if specScore k > b.2.2 then
                      policyScanLoop perm rest (some (k, p, specScore k))
                    else policyScanLoop perm rest (some b))) := rfl
              rw [h1, if_neg hkne, mpp_eq_mppB hq hwfhead, except_bind_ok,
                hm]
              rw [if_neg (by simp), if_neg hgt]
            obtain ⟨res, heq, hA, hB, hC⟩ := hcommon (some b) (some b) hm
              (fun b' hb' => hbest b' hb')
              (fun b' hb' => Or.inl hb')
              (fun b' hb' => ⟨b', hb', le_refl _⟩)
              ⟨b, rfl, le_of_not_lt hgt⟩
            exact ⟨res, by rw [hred]; exact heq, hA, hB, hC⟩

/-- C9: the Policy Evaluator's selector. An entry whose key equals the
permission wins outright. Otherwise — for well-formed keys and permission —
the selector returns a defined, pattern-matching entry whose specificity
score (`specScore`: 2 for a concrete resource plus 1 for a concrete action,
0 for wildcarded parts, with `"*"` and `"*:*"` scoring 0) is maximal among
all defined matching entries. -/
theorem getPolicyForPermission_specificity {α : Type} :
    (∀ (entries : List (String × Option α)) (perm : String),
      (∃ e ∈ entries, e.1 = perm) →
      ∃ v, getPolicyForPermission (some entries) perm = .ok (some (perm, v)))
    ∧ (∀ (entries : List (String × Option α)) (perm : String),
      (∀ e ∈ entries, e.1 ≠ perm) →
      (∀ e ∈ entries, e.1 = "*" ∨ parseOk e.1 = true) →
      parseOk perm = true →
      (∃ e ∈ entries, mppB perm e.1 = true ∧ e.2.isSome) →
      ∃ (k : String) (p : α),
        getPolicyForPermission (some entries) perm = .ok (some (k, some p)) ∧
        (k, some p) ∈ entries ∧ mppB perm k = true ∧
        ∀ e ∈ entries, mppB perm e.1 = true → e.2.isSome →
          specScore e.1 ≤ specScore k) := by
  constructor
  · intro entries perm hex
    obtain ⟨e, he, heq⟩ := hex
    have hany : entries.any (fun e => e.1 = perm) = true :=
      List.any_eq_true.mpr ⟨e, he, by simp [heq]⟩
    refine ⟨(entries.find? (fun e => e.1 = perm)).bind (fun e => e.2), ?_⟩
    show (if entries.any (fun e => e.1 = perm) = true then _ else _) = _
    rw [if_pos hany]
  · intro entries perm hne hwfk hq hex
    have hnotany : ¬(entries.any (fun e => e.1 = perm) = true) := by
      intro hc
      obtain ⟨e, he, heq⟩ := List.any_eq_true.mp hc
      exact hne e he (by simpa using heq)
    obtain ⟨res, heq, _, h3, h4⟩ :=
      policyScanLoop_spec perm entries none hq hne hwfk
        (fun b hb => Option.noConfusion hb)
    obtain ⟨e, he, hm, hsome⟩ := hex
    obtain ⟨pe, hpe⟩ := Option.isSome_iff_exists.mp hsome
    have hememb : (e.1, some pe) ∈ entries := by
      have : e = (e.1, some pe) := by
        cases e
        simpa using hpe
      rw [← this]
      exact he
    obtain ⟨r, hr, _⟩ := h4 e.1 pe hememb hm
    obtain ⟨hscore, horigin⟩ := h3 r hr
    have horigin' : (r.1, some r.2.1) ∈ entries ∧ mppB perm r.1 = true := by
      rcases horigin with h | h
      · exact absurd h (by simp)
      · exact h
    refine ⟨r.1, r.2.1, ?_, horigin'.1, horigin'.2, ?_⟩
    · show (if entries.any (fun e => e.1 = perm) = true then _ else _) = _
      rw [if_neg hnotany, heq, hr, except_map_ok]
      rfl
    · intro e' he' hm' hsome'
      obtain ⟨pe', hpe'⟩ := Option.isSome_iff_exists.mp hsome'
      have hememb' : (e'.1, some pe') ∈ entries := by
        have : e' = (e'.1, some pe') := by
          cases e'
          simpa using hpe'
        rw [← this]
        exact he'
      obtain ⟨r', hr', hle⟩ := h4 e'.1 pe' hememb' hm'
      rw [hr] at hr'
      rw [← hscore, (Option.some.inj hr')]
      exact hle

/-- Witness for C9: an exact key wins; among `documents:*` (score 2) and `*`
(score 0) the selector picks `documents:*`. -/
theorem getPolicyForPermission_specificity_witness :
    (∃ v, getPolicyForPermission
      (some [("documents:read", some 1)]) "documents:read" =
      .ok (some ("documents:read", v)))
    ∧ (∃ (k : String) (p : Nat), getPolicyForPermission
        (some [("documents:*", some 1), ("*", some 2)]) "documents:read" =
        .ok (some (k, some p)) ∧
        (k, some p) ∈ [("documents:*", some 1), ("*", some 2)] ∧
        mppB "documents:read" k = true ∧
        ∀ e ∈ [("documents:*", some 1), ("*", some 2)],
          mppB "documents:read" e.1 = true → e.2.isSome →
          specScore e.1 ≤ specScore k) :=
  ⟨(getPolicyForPermission_specificity (α := Nat)).1
      [("documents:read", some 1)] "documents:read"
      ⟨("documents:read", some 1), by decide, rfl⟩,
   (getPolicyForPermission_specificity (α := Nat)).2
      [("documents:*", some 1), ("*", some 2)] "documents:read"
      (by decide) (by decide) (by decide)
      ⟨("documents:*", some 1), by decide, by decide, by decide⟩⟩

/-! ## C8: traversal termination -/

/-- Every queue entry pushed by a processed item draws its visit key from a
stored tuple's subject and an `inherit` relation of the rule set. -/
theorem pushesFor_keys (db : List RelTuple)
    (rules : List (String × List TravRule)) (current : QItem) :
    ∀ item ∈ pushesFor db rules current,
      ∃ t ∈ db, ∃ ir ∈ ruleInherits rules,
        visitKey item = t.subjectType ++ ":" ++ t.subjectId ++ ":" ++ ir := by
  intro item hitem
  unfold pushesFor at hitem
  obtain ⟨rule, hrule, hitem2⟩ := List.mem_flatMap.mp hitem
  obtain ⟨parent, hparent, hback⟩ := List.mem_map.mp hitem2
  have hparentdb : parent ∈ db :=
    List.mem_of_mem_filter (List.mem_of_mem_filter hparent)
  have hinherit : rule.inherit ∈ ruleInherits rules := by
    rcases hfind : rules.find? (fun e => e.1 = current.objectType ++ ":" ++
      current.relation) with _ | e
    · rw [hfind] at hrule
      exact absurd hrule (by simp)
    · rw [hfind] at hrule
      have he : e ∈ rules := List.mem_of_find?_eq_some hfind
      exact List.mem_flatMap.mpr ⟨e, he,
        List.mem_map.mpr ⟨rule, by simpa using hrule, rfl⟩⟩
  exact ⟨parent, hparentdb, rule.inherit, hinherit, by rw [← hback]; rfl⟩

/-- Removing one known member from a duplicate-free list shortens a filter
by exactly one. -/
theorem length_filter_ne_of_nodup {l : List String} (h : l.Nodup)
    {a : String} (ha : a ∈ l) :
    (l.filter (fun k => k ≠ a)).length + 1 = l.length := by
  induction l with
  | nil => exact absurd ha (List.not_mem_nil a)
  | cons x t ih =>
    rw [List.nodup_cons] at h
    rcases List.mem_cons.mp ha with rfl | hat
    · have hself : t.filter (fun k => k ≠ a) = t :=
        List.filter_eq_self.mpr (fun b hb => by
          simp only [decide_eq_true_eq]
          exact fun hba => h.1 (hba ▸ hb))
      rw [List.filter_cons, if_neg (by simp), hself, List.length_cons]
    · have hxa : x ≠ a := fun hx => h.1 (hx ▸ hat)
      rw [List.filter_cons, if_pos (by simp [hxa]), List.length_cons,
        List.length_cons]
      have := ih h.2 hat
      omega

/-- A flat map over a list whose images are uniformly bounded is bounded by
the product. -/
theorem flatMap_length_le {β γ : Type} (l : List β) (f : β → List γ) (K : Nat)
    (h : ∀ x ∈ l, (f x).length ≤ K) :
    (l.flatMap f).length ≤ l.length * K := by
  induction l with
  | nil => simp
  | cons x t ih =>
    rw [List.flatMap_cons, List.length_append, List.length_cons,
      Nat.succ_mul]
    have h1 := h x (by simp)
    have h2 := ih (fun y hy => h y (by simp [hy]))
    omega

/-- A member's bundle is no longer than the whole flat map. -/
theorem member_length_le_flatMap (rules : List (String × List TravRule)) :
    ∀ e ∈ rules, e.2.length ≤ (rules.flatMap (fun x => x.2)).length := by
  intro e he
  induction rules with
  | nil => exact absurd he (List.not_mem_nil e)
  | cons a t ih =>
    rw [List.flatMap_cons, List.length_append]
    rcases List.mem_cons.mp he with rfl | ht
    · omega
    · have := ih ht
      omega

/-- The number of entries one processed item pushes is bounded by
`pushBound`. -/
theorem pushesFor_length_le (db : List RelTuple)
    (rules : List (String × List TravRule)) (current : QItem) :
    (pushesFor db rules current).length ≤ pushBound db rules := by
  unfold pushesFor pushBound
  rcases hfind : rules.find? (fun e => e.1 = current.objectType ++ ":" ++
    current.relation) with _ | e
  · simp [hfind]
  · rw [hfind]
    have hmem : e ∈ rules := List.mem_of_find?_eq_some hfind
    have hb : ∀ rule ∈ e.2,
        ((((db.filter (fun t => t.objectType = current.objectType &&
            t.objectId = current.objectId && t.relation = rule.via))).filter
          (fun t => t.subjectType = rule.through)).map (fun parent =>
            ({ objectType := parent.subjectType,
               objectId := parent.subjectId, relation := rule.inherit,
               depth := current.depth + 1,
               path := current.path ++ [edgeString parent.subjectType
                 parent.subjectId rule.via current.objectType
                 current.objectId] } : QItem))).length ≤ db.length := by
      intro rule _
      rw [List.length_map]
      exact le_trans ((List.filter_sublist _).length_le)
        ((List.filter_sublist _).length_le)
    have h1 := flatMap_length_le e.2 _ db.length hb
    have h2 := member_length_le_flatMap rules e hmem
    calc (e.2.flatMap _).length ≤ e.2.length * db.length := h1
      _ ≤ (rules.flatMap (fun x => x.2)).length * db.length :=
        Nat.mul_le_mul_right _ h2

/-- The BFS loop of `checkRelationWithTraversal` reaches a result whenever
the fuel covers the current queue plus one full push budget for every not yet
visited key of the (finite) key universe: each processed item consumes an
unvisited key, so the traversal cannot run forever even on cyclic graphs. -/
theorem travLoop_total (db : List RelTuple)
    (rules : List (String × List TravRule)) (sT sI : String) (md : Nat)
    (U : List String)
    (hU : ∀ t ∈ db, ∀ ir ∈ ruleInherits rules,
      (t.subjectType ++ ":" ++ t.subjectId ++ ":" ++ ir) ∈ U) :
    ∀ (fuel : Nat) (visited : List String) (queue : List QItem),
    (∀ item ∈ queue, visitKey item ∈ U) →
    1 + queue.length + (U.dedup.filter (fun k => k ∉ visited)).length *
      (1 + pushBound db rules) ≤ fuel →
    ∃ r, travLoop db rules sT sI md fuel visited queue = some r := by
  intro fuel
  induction fuel with
  | zero => intro visited queue _ hbound; omega
  | succ fuel ih =>
    intro visited queue hkeys hbound
    cases queue with
    | nil => exact ⟨.ok ⟨false, [], "No relationship path found"⟩, rfl⟩
    | cons current rest =>
      have h0 : travLoop db rules sT sI md (fuel + 1) visited
          (current :: rest) =
          (if current.depth ≥ md then
            travLoop db rules sT sI md fuel visited rest
          else if visitKey current ∈ visited then
            travLoop db rules sT sI md fuel visited rest
          else
            match uniqueTuple db sT sI current.relation current.objectType
              current.objectId with
            | .error e => some (.error e)
            | .ok (some _) =>
              some (.ok ⟨true,
                current.path ++ [edgeString sT sI current.relation
                  current.objectType current.objectId],
                "Access via " ++ current.objectType⟩)
            | .ok none =>
              travLoop db rules sT sI md fuel
                (visitKey current :: visited)
                (rest ++ pushesFor db rules current)) := rfl
      have hrest : ∀ item ∈ rest, visitKey item ∈ U :=
        fun item hi => hkeys item (by simp [hi])
      by_cases hd : current.depth ≥ md
      · obtain ⟨r, hr⟩ := ih visited rest hrest (by
          simp only [List.length_cons] at hbound
          omega)
        exact ⟨r, by rw [h0, if_pos hd]; exact hr⟩
      · by_cases hv : visitKey current ∈ visited
        · obtain ⟨r, hr⟩ := ih visited rest hrest (by
            simp only [List.length_cons] at hbound
            omega)
          exact ⟨r, by rw [h0, if_neg hd, if_pos hv]; exact hr⟩
        · cases htup : uniqueTuple db sT sI current.relation
            current.objectType current.objectId with
          | error e =>
            exact ⟨.error e, by rw [h0, if_neg hd, if_neg hv, htup]⟩
          | ok x =>
            cases x with
            | some t =>
              refine ⟨.ok ⟨true,
                current.path ++ [edgeString sT sI current.relation
                  current.objectType current.objectId],
                "Access via " ++ current.objectType⟩, ?_⟩
              rw [h0, if_neg hd, if_neg hv, htup]
            | none =>
              have hkeyU : visitKey current ∈ U := hkeys current (by simp)
              have hcount :
                  (U.dedup.filter
                    (fun k => k ∉ visitKey current :: visited)).length + 1 =
                  (U.dedup.filter (fun k => k ∉ visited)).length := by
                have hsplit : U.dedup.filter
                    (fun k => k ∉ visitKey current :: visited) =
                    (U.dedup.filter (fun k => k ∉ visited)).filter
                      (fun k => k ≠ visitKey current) := by
                  rw [List.filter_filter]
                  apply List.filter_congr
                  intro k _
                  simp [List.mem_cons, not_or, and_comm]
                have hmemf : visitKey current ∈
                    U.dedup.filter (fun k => k ∉ visited) :=
                  List.mem_filter.mpr ⟨List.mem_dedup.mpr hkeyU, by
                    simpa using hv⟩
                have hnd : (U.dedup.filter
                    (fun k => k ∉ visited)).Nodup :=
                  (List.nodup_dedup U).filter _
                rw [hsplit]
                exact length_filter_ne_of_nodup hnd hmemf
              have hpush := pushesFor_length_le db rules current
              have hexp : (U.dedup.filter
                    (fun k => k ∉ visited)).length *
                    (1 + pushBound db rules) =
                  (U.dedup.filter
                    (fun k => k ∉ visitKey current :: visited)).length *
                    (1 + pushBound db rules) + (1 + pushBound db rules) := by
                rw [← hcount]
                ring
              obtain ⟨r, hr⟩ := ih (visitKey current :: visited)
                (rest ++ pushesFor db rules current)
                (fun item hi => by
                  rcases List.mem_append.mp hi with h | h
                  · exact hrest item h
                  · obtain ⟨t, ht, ir, hir, heq⟩ :=
                      pushesFor_keys db rules current item h
                    rw [heq]
                    exact hU t ht ir hir)
                (by
                  rw [List.length_append]
                  simp only [List.length_cons] at hbound
                  omega)
              exact ⟨r, by rw [h0, if_neg hd, if_neg hv, htup]; exact hr⟩

/-- C8: `checkRelationWithTraversal` terminates on every store, rule set and
depth bound — the fuelled BFS loop, run with the `travFuel` budget the
function uses, always reaches a result — and on the cyclic graph
`A --m--> B --m--> A` with a rule on relation `m` and no matching tuple for
the subject it returns `allowed = false`. -/
theorem traversal_terminates (db : List RelTuple)
    (rules : List (String × List TravRule))
    (sT sI rel oT oI : String) (mdArg : Option Nat) :
    (∃ r, travLoop db rules sT sI (mdArg.getD 5)
      (travFuel db rules (visitKey ⟨oT, oI, rel, 0, []⟩)) []
      [⟨oT, oI, rel, 0, []⟩] = some r)
    ∧ checkRelationWithTraversal
        [⟨"doc", "A", "m", "doc", "B", none, 1⟩,
         ⟨"doc", "B", "m", "doc", "A", none, 2⟩]
        "user" "alice" "m" "doc" "A"
        (some [("doc:m", [⟨"doc", "m", "m"⟩])]) none =
        .ok ⟨false, [], "No relationship path found"⟩ := by
  constructor
  · set U := keyUniverse db rules (visitKey ⟨oT, oI, rel, 0, []⟩) with hUdef
    have hU : ∀ t ∈ db, ∀ ir ∈ ruleInherits rules,
        (t.subjectType ++ ":" ++ t.subjectId ++ ":" ++ ir) ∈ U := by
      intro t ht ir hir
      rw [hUdef]
      unfold keyUniverse
      exact List.mem_cons.mpr (Or.inr (List.mem_flatMap.mpr
        ⟨t, ht, List.mem_map.mpr ⟨ir, hir, rfl⟩⟩))
    refine travLoop_total db rules sT sI (mdArg.getD 5) U hU _ []
      [⟨oT, oI, rel, 0, []⟩] ?_ ?_
    · intro item hi
      rw [List.mem_singleton.mp hi, hUdef]
      unfold keyUniverse
      exact List.mem_cons.mpr (Or.inl rfl)
    · have hfil : U.dedup.filter (fun k => k ∉ ([] : List String)) =
          U.dedup :=
        List.filter_eq_self.mpr (fun a _ => by simp)
      rw [hfil]
      show 1 + 1 + U.dedup.length * (1 + pushBound db rules) ≤
        2 + U.dedup.length * (1 + pushBound db rules)
      omega
  · rfl

end ConvexAuthz
